import Mathlib

/-!
# Verification of the mesh shell front end and execution engine

This file gives a shallow embedding, in Lean 4, of the core of the mesh
shell (github.com/meshshell/mesh): the incremental lexer
(`parser/lexer.go`), the recursive-descent parser (`parser/parser.go`),
the tree-walking interpreter (`interpreter/interpreter.go`), and the
builtins `cd` and `exit` (`interpreter/builtin.go`), together with the
driver loop (`main.go`'s `repl`).  Strings are modelled as `List Char`;
Go channels and goroutines are modelled by explicit state passing: the
lexer's `stateFn` becomes a state of type `LexState` together with the
list of lexemes emitted for one fed line, and the parser coroutine is
defunctionalised into a token-at-a-time step automaton whose suspension
signals (`done <- false` / `done <- true`) are recorded alongside each
step.  Effects of the interpreter (process spawning, `os.Chdir`,
`os.Pipe`, `os.UserHomeDir`) are parameters of the model, supplied as
oracle fields of an environment record.

Theorems at the end settle the specification claims about this code.
-/

namespace Mesh

/-! ## Tokens and lexemes (token/token.go, parser/lexer.go) -/

/-- `token.Token` from `token/token.go`. -/
inductive Tok where
  | newline
  | escapedNewline
  | whitespace
  | identifier
  | string
  | subString
  | dollar
  | pipe
  | semicolon
  | tilde
deriving DecidableEq, Repr

/-- `lexeme` from `parser/lexer.go`: a token paired with its text. -/
structure Lexeme where
  tok : Tok
  text : List Char
deriving DecidableEq, Repr

/-- `const whitespace = " \t\n"` from `parser/lexer.go`. -/
def whitespaceChars : List Char := [' ', '\t', '\n']

/-- `const special = "|$"` from `parser/lexer.go`. -/
def specialChars : List Char := ['|', '$']

/-- The delimiter set `special+whitespace` that `lexUnquoted` passes to
`decodeString`. -/
def unquotedDelims : List Char := specialChars ++ whitespaceChars

/-- `decodeString(line, pos, delimiter)` from `parser/lexer.go`.  It scans
`line` copying characters into the result text; a backslash escapes the
following character (the backslash is dropped, the next character kept
verbatim); scanning stops at the first unescaped delimiter character.  The
returned `Nat` is the number of characters consumed, excluding the
delimiter itself (Go returns the delimiter's index `i`).  If the line ends
while escaped, the text so far and `len(line)-1` are returned (leaving the
trailing backslash unconsumed).  If the line ends normally, the rest is
copied, a literal newline is appended when the delimiter set is a single
or double quote (`isQuote`), and `len(line)` is returned. -/
def decodeString (isQuote : Bool) (delim : List Char) : List Char → List Char × Nat
  | [] => ((if isQuote then ['\n'] else []), 0)
  | c :: cs =>
    if c = '\\' then
      match cs with
      | [] => ([], 0)
      | d :: ds =>
        let r := decodeString isQuote delim ds
        (d :: r.1, r.2 + 2)
    else if delim.contains c then ([], 0)
    else
      let r := decodeString isQuote delim cs
      (c :: r.1, r.2 + 1)

theorem decodeString_nil (q : Bool) (d : List Char) :
    decodeString q d [] = ((if q then ['\n'] else []), 0) := rfl

theorem decodeString_bs_nil (q : Bool) (d : List Char) :
    decodeString q d ['\\'] = ([], 0) := rfl

theorem decodeString_bs (q : Bool) (d : List Char) (dd : Char) (ds : List Char) :
    decodeString q d ('\\' :: dd :: ds) =
      (dd :: (decodeString q d ds).1, (decodeString q d ds).2 + 2) := rfl

theorem decodeString_delim (q : Bool) (d : List Char) (c : Char) (cs : List Char)
    (hc : c ≠ '\\') (hdel : d.contains c = true) :
    decodeString q d (c :: cs) = ([], 0) := by
  rw [decodeString.eq_def]
  simp only []
  rw [if_neg hc, if_pos hdel]

theorem decodeString_plain (q : Bool) (d : List Char) (c : Char) (cs : List Char)
    (hc : c ≠ '\\') (hdel : d.contains c = false) :
    decodeString q d (c :: cs) =
      (c :: (decodeString q d cs).1, (decodeString q d cs).2 + 1) := by
  rw [decodeString.eq_def]
  simp only []
  rw [if_neg hc, if_neg (by simpa using hdel)]

theorem decodeString_size_le_aux (q : Bool) (d : List Char) :
    ∀ n : Nat, ∀ l : List Char, l.length ≤ n → (decodeString q d l).2 ≤ l.length := by
  intro n
  induction n with
  | zero =>
    intro l hl
    have : l = [] := List.length_eq_zero.mp (Nat.le_zero.mp hl)
    subst this
    simp [decodeString_nil]
  | succ n ih =>
    intro l hl
    match l with
    | [] => simp [decodeString_nil]
    | c :: cs =>
      by_cases hc : c = '\\'
      · subst hc
        match cs with
        | [] => simp [decodeString_bs_nil]
        | dd :: ds =>
          have h1 := ih ds (by simp only [List.length_cons] at hl ⊢; omega)
          simp only [decodeString_bs, List.length_cons]
          omega
      · by_cases hdel : d.contains c
        · simp only [decodeString_delim q d c cs hc hdel, List.length_cons]
          omega
        · have h1 := ih cs (by simp only [List.length_cons] at hl; omega)
          simp only [decodeString_plain q d c cs hc (by simpa using hdel), List.length_cons]
          omega

theorem decodeString_size_le (q : Bool) (d : List Char) (l : List Char) :
    (decodeString q d l).2 ≤ l.length :=
  decodeString_size_le_aux q d l.length l (le_refl _)

theorem decodeString_size_pos (q : Bool) (d : List Char) (c : Char) (cs : List Char)
    (hdel : d.contains c = false) (hne : c :: cs ≠ ['\\']) :
    1 ≤ (decodeString q d (c :: cs)).2 := by
  by_cases hc : c = '\\'
  · subst hc
    match cs with
    | [] => exact absurd rfl hne
    | dd :: ds =>
      simp only [decodeString_bs]
      omega
  · simp only [decodeString_plain q d c cs hc hdel]
    omega

/-- The state stored in the lexer between lines: in Go this is the
`stateFn` saved in `lexer.state` (`lexStart`, `lexSingleQuoted`,
`lexDoubleQuoted` or `lexUnquoted`). -/
inductive LexState where
  | start
  | singleQ
  | doubleQ
  | unquoted
deriving DecidableEq, Repr

/-- Termination rank for `lexUnquoted`: when its line begins with a
delimiter (only possible when it is resumed as the saved state on a fresh
line), `decodeString` consumes nothing and control falls through to
`lexStart` on the same line, so `lexUnquoted` must rank above `lexStart`
there; when the line begins with a non-delimiter, at least one character
is consumed before `lexStart` is re-entered. -/
def unquotedRank : List Char → Nat
  | [] => 2
  | c :: _ => cond (unquotedDelims.contains c) 2 0

theorem length_dropWhile_le (p : Char → Bool) (l : List Char) :
    (l.dropWhile p).length ≤ l.length := by
  induction l with
  | nil => simp
  | cons c cs ih =>
    by_cases h : p c
    · simp only [List.dropWhile_cons, h, if_true, List.length_cons]
      omega
    · simp [List.dropWhile_cons, h]

theorem unquotedDelims_contains_false (c : Char) (h1 : c ≠ '|') (h2 : c ≠ '$')
    (hw : whitespaceChars.contains c = false) : unquotedDelims.contains c = false := by
  have h3 : c ≠ ' ' := by
    intro hx
    subst hx
    simp [whitespaceChars] at hw
  have h4 : c ≠ '\t' := by
    intro hx
    subst hx
    simp [whitespaceChars] at hw
  have h5 : c ≠ '\n' := by
    intro hx
    subst hx
    simp [whitespaceChars] at hw
  simp [unquotedDelims, specialChars, whitespaceChars, h1, h2, h3, h4, h5]

theorem dropWhile_head_false (p : Char → Bool) (l : List Char) (c : Char) (cs : List Char)
    (h : l.dropWhile p = c :: cs) : p c = false := by
  induction l with
  | nil => simp at h
  | cons a as ih =>
    by_cases ha : p a
    · simp only [List.dropWhile_cons, ha, if_true] at h
      exact ih h
    · simp only [List.dropWhile_cons, ha, if_false] at h
      cases h
      simpa using ha

mutual

/-- `lexStart` from `parser/lexer.go`: trims leading whitespace (emitting
it as a `Whitespace` lexeme), then emits `Newline` for an empty rest,
`EscapedNewline` for a lone backslash, dispatches on `$ | ~ ' "`, and
otherwise hands the line to `lexUnquoted`. -/
def lexStart (line : List Char) : List Lexeme × LexState :=
  let left := line.takeWhile (fun c => whitespaceChars.contains c)
  let pre : List Lexeme := if left.isEmpty then [] else [⟨Tok.whitespace, left⟩]
  match h : line.dropWhile (fun c => whitespaceChars.contains c) with
  | [] => (pre ++ [⟨Tok.newline, []⟩], LexState.start)
  | c :: cs =>
    if hbs : c = '\\' ∧ cs = [] then
      (pre ++ [⟨Tok.escapedNewline, ['\\']⟩], LexState.start)
    else if hdollar : c = '$' then
      let r := lexIdentifier cs
      (pre ++ ⟨Tok.dollar, ['$']⟩ :: r.1, r.2)
    else if hpipe : c = '|' then
      let r := lexStart cs
      (pre ++ ⟨Tok.pipe, ['|']⟩ :: r.1, r.2)
    else if htilde : c = '~' then
      let r := lexStart cs
      (pre ++ ⟨Tok.tilde, ['~']⟩ :: r.1, r.2)
    else if hsq : c = '\'' then
      let r := quoted '\'' LexState.singleQ cs
      (pre ++ r.1, r.2)
    else if hdq : c = '"' then
      let r := quoted '"' LexState.doubleQ cs
      (pre ++ r.1, r.2)
    else
      let r := lexUnquoted (c :: cs)
      (pre ++ r.1, r.2)
termination_by 2 * line.length + 1
decreasing_by
  · have h1 := length_dropWhile_le (fun c => whitespaceChars.contains c) line
    rw [h] at h1
    simp only [List.length_cons] at h1
    omega
  · have h1 := length_dropWhile_le (fun c => whitespaceChars.contains c) line
    rw [h] at h1
    simp only [List.length_cons] at h1
    omega
  · have h1 := length_dropWhile_le (fun c => whitespaceChars.contains c) line
    rw [h] at h1
    simp only [List.length_cons] at h1
    omega
  · have h1 := length_dropWhile_le (fun c => whitespaceChars.contains c) line
    rw [h] at h1
    simp only [List.length_cons] at h1
    omega
  · have h1 := length_dropWhile_le (fun c => whitespaceChars.contains c) line
    rw [h] at h1
    simp only [List.length_cons] at h1
    omega
  · have h1 := length_dropWhile_le (fun c => whitespaceChars.contains c) line
    rw [h] at h1
    have h2 := dropWhile_head_false (fun c => whitespaceChars.contains c) line c cs h
    simp only at h2
    have hc := unquotedDelims_contains_false c hpipe hdollar h2
    simp only [unquotedRank, hc, Bool.cond_false, List.length_cons] at *
    omega

/-- `lexIdentifier` from `parser/lexer.go`: after a `$`, an identifier is
a letter or underscore followed by letters, digits and underscores.  Both
Go branches (identifier runs to end of line / stops earlier) are the same
take/drop split, so they are expressed uniformly here. -/
def lexIdentifier (line : List Char) : List Lexeme × LexState :=
  match line with
  | [] => lexStart []
  | c :: cs =>
    if c.isAlpha || c = '_' then
      let r := lexStart (cs.dropWhile (fun x => x.isAlpha || x.isDigit || x = '_'))
      (⟨Tok.identifier, c :: cs.takeWhile (fun x => x.isAlpha || x.isDigit || x = '_')⟩ :: r.1,
        r.2)
    else lexStart (c :: cs)
termination_by 2 * line.length + 2
decreasing_by
  · simp only [List.length_nil]
    omega
  · rename_i hcond
    have h1 := length_dropWhile_le (fun x => x.isAlpha || x.isDigit || x = '_') ds
    simp only [List.length_cons]
    omega
  · simp only [List.length_cons]
    omega

/-- `quoted` from `parser/lexer.go`: `line` is the text after the opening
quote.  If the character after the decoded span is not the closing quote
(including end of line), a `SubString` and a `Newline` lexeme are emitted
and the same quoted state is kept for the next line; otherwise a `String`
lexeme is emitted and `lexStart` resumes after the closing quote. -/
def quoted (q : Char) (next : LexState) (line : List Char) : List Lexeme × LexState :=
  match hr : line.drop (decodeString true [q] line).2 with
  | r :: rs =>
    if r = q then
      let k := lexStart rs
      (⟨Tok.string, (decodeString true [q] line).1⟩ :: k.1, k.2)
    else
      ([⟨Tok.subString, (decodeString true [q] line).1⟩, ⟨Tok.newline, r :: rs⟩], next)
  | [] => ([⟨Tok.subString, (decodeString true [q] line).1⟩, ⟨Tok.newline, []⟩], next)
termination_by 2 * line.length + 2
decreasing_by
  · have h1 : (line.drop (decodeString true [q] line).2).length ≤ line.length := by
      simp [List.length_drop]
    rw [hr] at h1
    simp only [List.length_cons] at h1
    omega

/-- `lexUnquoted` from `parser/lexer.go`: decodes an unquoted word up to
the delimiter set `special+whitespace`.  If exactly a trailing backslash
remains, a `SubString` and a `Newline` lexeme are emitted and the
unquoted state is kept for the next line; otherwise a `String` lexeme is
emitted and `lexStart` continues at the delimiter. -/
def lexUnquoted (line : List Char) : List Lexeme × LexState :=
  if hbs : line.drop (decodeString false unquotedDelims line).2 = ['\\'] then
    ([⟨Tok.subString, (decodeString false unquotedDelims line).1⟩, ⟨Tok.newline, ['\\']⟩],
      LexState.unquoted)
  else
    let k := lexStart (line.drop (decodeString false unquotedDelims line).2)
    (⟨Tok.string, (decodeString false unquotedDelims line).1⟩ :: k.1, k.2)
termination_by 2 * line.length + unquotedRank line
decreasing_by
  · rcases hline : line with _ | ⟨c, cs⟩
    · subst hline
      simp [decodeString, unquotedRank]
    · subst hline
      by_cases hd : unquotedDelims.contains c
      · have h1 : ((c :: cs).drop (decodeString false unquotedDelims (c :: cs)).2).length ≤
            (c :: cs).length := by
          simp [List.length_drop]
        simp only [unquotedRank, hd, Bool.cond_true]
        omega
      · have hd' : unquotedDelims.contains c = false := by simpa using hd
        have hne : c :: cs ≠ ['\\'] := by
          intro hx
          apply hbs
          rw [hx]
          simp [decodeString_bs_nil]
        have hpos := decodeString_size_pos false unquotedDelims c cs hd' hne
        have hle := decodeString_size_le false unquotedDelims (c :: cs)
        have h1 : ((c :: cs).drop (decodeString false unquotedDelims (c :: cs)).2).length =
            (c :: cs).length - (decodeString false unquotedDelims (c :: cs)).2 := by
          simp [List.length_drop]
        simp only [unquotedRank, hd', Bool.cond_false, List.length_cons] at *
        omega

end

/-- `lexer.lex(line)` from `parser/lexer.go`: run the saved state function
on one fed line, returning the lexemes emitted for that line and the new
saved state. -/
def lexLine : LexState → List Char → List Lexeme × LexState
  | LexState.start, line => lexStart line
  | LexState.singleQ, line => quoted '\'' LexState.singleQ line
  | LexState.doubleQ, line => quoted '"' LexState.doubleQ line
  | LexState.unquoted, line => lexUnquoted line

/-! ### Branch equations for the lexer

The mutual definitions above are compiled by well-founded recursion, so
they do not reduce definitionally; the following lemmas restate each
branch of each function as a conditional rewrite. -/

/-- The `Whitespace` lexeme (possibly none) that `lexStart` emits for the
leading whitespace of a line. -/
def wsPre (line : List Char) : List Lexeme :=
  if (line.takeWhile (fun c => whitespaceChars.contains c)).isEmpty then []
  else [⟨Tok.whitespace, line.takeWhile (fun c => whitespaceChars.contains c)⟩]

theorem lexStart_nil_case (line : List Char)
    (h : line.dropWhile (fun c => whitespaceChars.contains c) = []) :
    lexStart line = (wsPre line ++ [⟨Tok.newline, []⟩], LexState.start) := by
  rw [lexStart.eq_def, wsPre]
  split
  · rfl
  · rename_i c cs heq
    rw [h] at heq
    exact absurd heq (by simp)

theorem lexStart_bs_case (line : List Char)
    (h : line.dropWhile (fun c => whitespaceChars.contains c) = ['\\']) :
    lexStart line = (wsPre line ++ [⟨Tok.escapedNewline, ['\\']⟩], LexState.start) := by
  rw [lexStart.eq_def, wsPre]
  split
  · rename_i heq
    rw [h] at heq
    exact absurd heq (by simp)
  · rename_i c cs heq
    rw [h] at heq
    injection heq with h1 h2
    subst h1
    subst h2
    rw [dif_pos ⟨rfl, rfl⟩]

theorem lexStart_dollar_case (line : List Char) (cs : List Char)
    (h : line.dropWhile (fun c => whitespaceChars.contains c) = '$' :: cs) :
    lexStart line =
      (wsPre line ++ ⟨Tok.dollar, ['$']⟩ :: (lexIdentifier cs).1, (lexIdentifier cs).2) := by
  rw [lexStart.eq_def, wsPre]
  split
  · rename_i heq
    rw [h] at heq
    exact absurd heq (by simp)
  · rename_i c cs' heq
    rw [h] at heq
    injection heq with h1 h2
    subst h1
    subst h2
    rw [dif_neg (by simp), dif_pos rfl]

theorem lexStart_pipe_case (line : List Char) (cs : List Char)
    (h : line.dropWhile (fun c => whitespaceChars.contains c) = '|' :: cs) :
    lexStart line =
      (wsPre line ++ ⟨Tok.pipe, ['|']⟩ :: (lexStart cs).1, (lexStart cs).2) := by
  rw [lexStart.eq_def, wsPre]
  split
  · rename_i heq
    rw [h] at heq
    exact absurd heq (by simp)
  · rename_i c cs' heq
    rw [h] at heq
    injection heq with h1 h2
    subst h1
    subst h2
    rw [dif_neg (by simp), dif_neg (by simp), dif_pos rfl]

theorem lexStart_tilde_case (line : List Char) (cs : List Char)
    (h : line.dropWhile (fun c => whitespaceChars.contains c) = '~' :: cs) :
    lexStart line =
      (wsPre line ++ ⟨Tok.tilde, ['~']⟩ :: (lexStart cs).1, (lexStart cs).2) := by
  rw [lexStart.eq_def, wsPre]
  split
  · rename_i heq
    rw [h] at heq
    exact absurd heq (by simp)
  · rename_i c cs' heq
    rw [h] at heq
    injection heq with h1 h2
    subst h1
    subst h2
    rw [dif_neg (by simp), dif_neg (by simp), dif_neg (by simp), dif_pos rfl]

theorem lexStart_squote_case (line : List Char) (cs : List Char)
    (h : line.dropWhile (fun c => whitespaceChars.contains c) = '\'' :: cs) :
    lexStart line =
      (wsPre line ++ (quoted '\'' LexState.singleQ cs).1, (quoted '\'' LexState.singleQ cs).2) := by
  rw [lexStart.eq_def, wsPre]
  split
  · rename_i heq
    rw [h] at heq
    exact absurd heq (by simp)
  · rename_i c cs' heq
    rw [h] at heq
    injection heq with h1 h2
    subst h1
    subst h2
    rw [dif_neg (by simp), dif_neg (by simp), dif_neg (by simp), dif_neg (by simp),
      dif_pos rfl]

theorem lexStart_dquote_case (line : List Char) (cs : List Char)
    (h : line.dropWhile (fun c => whitespaceChars.contains c) = '"' :: cs) :
    lexStart line =
      (wsPre line ++ (quoted '"' LexState.doubleQ cs).1, (quoted '"' LexState.doubleQ cs).2) := by
  rw [lexStart.eq_def, wsPre]
  split
  · rename_i heq
    rw [h] at heq
    exact absurd heq (by simp)
  · rename_i c cs' heq
    rw [h] at heq
    injection heq with h1 h2
    subst h1
    subst h2
    rw [dif_neg (by simp), dif_neg (by simp), dif_neg (by simp), dif_neg (by simp),
      dif_neg (by simp), dif_pos rfl]

theorem lexStart_word_case (line : List Char) (c : Char) (cs : List Char)
    (h : line.dropWhile (fun x => whitespaceChars.contains x) = c :: cs)
    (hbs : ¬(c = '\\' ∧ cs = [])) (h1 : c ≠ '$') (h2 : c ≠ '|') (h3 : c ≠ '~')
    (h4 : c ≠ '\'') (h5 : c ≠ '"') :
    lexStart line = (wsPre line ++ (lexUnquoted (c :: cs)).1, (lexUnquoted (c :: cs)).2) := by
  rw [lexStart.eq_def, wsPre]
  split
  · rename_i heq
    rw [h] at heq
    exact absurd heq (by simp)
  · rename_i c' cs' heq
    rw [h] at heq
    injection heq with he1 he2
    subst he1
    subst he2
    rw [dif_neg hbs, dif_neg h1, dif_neg h2, dif_neg h3, dif_neg h4, dif_neg h5]

theorem lexIdentifier_nil : lexIdentifier [] = lexStart [] := by
  rw [lexIdentifier.eq_def]

theorem lexIdentifier_ident (c : Char) (cs : List Char)
    (h : (c.isAlpha || c = '_') = true) :
    lexIdentifier (c :: cs) =
      (⟨Tok.identifier, c :: cs.takeWhile (fun x => x.isAlpha || x.isDigit || x = '_')⟩ ::
        (lexStart (cs.dropWhile (fun x => x.isAlpha || x.isDigit || x = '_'))).1,
        (lexStart (cs.dropWhile (fun x => x.isAlpha || x.isDigit || x = '_'))).2) := by
  rw [lexIdentifier.eq_def]
  simp only [h, if_true]

theorem lexIdentifier_other (c : Char) (cs : List Char)
    (h : (c.isAlpha || c = '_') = false) :
    lexIdentifier (c :: cs) = lexStart (c :: cs) := by
  rw [lexIdentifier.eq_def]
  simp only [h, if_false, Bool.false_eq_true]

theorem quoted_close_case (q : Char) (next : LexState) (line : List Char) (rs : List Char)
    (h : line.drop (decodeString true [q] line).2 = q :: rs) :
    quoted q next line =
      (⟨Tok.string, (decodeString true [q] line).1⟩ :: (lexStart rs).1, (lexStart rs).2) := by
  rw [quoted.eq_def]
  split
  · rename_i r rs' heq
    rw [h] at heq
    injection heq with he1 he2
    subst he1
    subst he2
    rw [if_pos rfl]
  · rename_i heq
    rw [h] at heq
    exact absurd heq (by simp)

theorem quoted_cont_case (q : Char) (next : LexState) (line : List Char) (r : Char)
    (rs : List Char) (h : line.drop (decodeString true [q] line).2 = r :: rs) (hq : r ≠ q) :
    quoted q next line =
      ([⟨Tok.subString, (decodeString true [q] line).1⟩, ⟨Tok.newline, r :: rs⟩], next) := by
  rw [quoted.eq_def]
  split
  · rename_i r' rs' heq
    rw [h] at heq
    injection heq with he1 he2
    subst he1
    subst he2
    rw [if_neg hq]
  · rename_i heq
    rw [h] at heq
    exact absurd heq (by simp)

theorem quoted_eol_case (q : Char) (next : LexState) (line : List Char)
    (h : line.drop (decodeString true [q] line).2 = []) :
    quoted q next line =
      ([⟨Tok.subString, (decodeString true [q] line).1⟩, ⟨Tok.newline, []⟩], next) := by
  rw [quoted.eq_def]
  split
  · rename_i r' rs' heq
    rw [h] at heq
    exact absurd heq (by simp)
  · rfl

theorem lexUnquoted_cont_case (line : List Char)
    (h : line.drop (decodeString false unquotedDelims line).2 = ['\\']) :
    lexUnquoted line =
      ([⟨Tok.subString, (decodeString false unquotedDelims line).1⟩, ⟨Tok.newline, ['\\']⟩],
        LexState.unquoted) := by
  rw [lexUnquoted.eq_def]
  rw [dif_pos h]

theorem lexUnquoted_word_case (line : List Char)
    (h : line.drop (decodeString false unquotedDelims line).2 ≠ ['\\']) :
    lexUnquoted line =
      (⟨Tok.string, (decodeString false unquotedDelims line).1⟩ ::
        (lexStart (line.drop (decodeString false unquotedDelims line).2)).1,
        (lexStart (line.drop (decodeString false unquotedDelims line).2)).2) := by
  rw [lexUnquoted.eq_def]
  rw [dif_neg h]

/-! ### Stream invariants of the lexer

Per fed line, the emitted lexemes always end in exactly one terminal
lexeme (`Newline`, or `EscapedNewline` for a lone-backslash line), no
`Semicolon` lexeme is ever emitted, every `Pipe` lexeme has text `"|"`,
and an `Identifier` lexeme only ever directly follows a `Dollar`. -/

/-- The lexemes that terminate a fed line's emission. -/
def TermTok (t : Lexeme) : Prop :=
  t.tok = Tok.newline ∨ (t.tok = Tok.escapedNewline ∧ t.text = ['\\'])

/-- No terminal lexeme occurs in the list. -/
def NoTerm (ls : List Lexeme) : Prop :=
  ∀ l ∈ ls, l.tok ≠ Tok.newline ∧ l.tok ≠ Tok.escapedNewline

/-- The output of one fed line: a body of non-terminal lexemes followed by
exactly one terminal lexeme. -/
def Shape (out : List Lexeme) : Prop :=
  ∃ body t, out = body ++ [t] ∧ NoTerm body ∧ TermTok t

/-- The output ends with a `SubString` immediately followed by the final
`Newline` (the shape of a line that left the lexer inside a string or an
unquoted word continuation). -/
def ContShape (out : List Lexeme) : Prop :=
  ∃ body s r, out = body ++ [⟨Tok.subString, s⟩, ⟨Tok.newline, r⟩]

/-- Every `Identifier` lexeme directly follows a `Dollar` lexeme; `p` is
the token preceding the head of the list. -/
def identOkFrom : Tok → List Lexeme → Prop
  | _, [] => True
  | p, l :: ls => (l.tok = Tok.identifier → p = Tok.dollar) ∧ identOkFrom l.tok ls

/-- All invariants of one line's emission, for the states `lexStart`,
`quoted` and `lexUnquoted` (whose output never begins with an
`Identifier`, hence `identOkFrom p` for every `p`). -/
structure GoodS (r : List Lexeme × LexState) : Prop where
  shape : Shape r.1
  cont : r.2 ≠ LexState.start → ContShape r.1
  noSemi : ∀ l ∈ r.1, l.tok ≠ Tok.semicolon
  pipeText : ∀ l ∈ r.1, l.tok = Tok.pipe → l.text = ['|']
  identOk : ∀ p : Tok, identOkFrom p r.1

/-- As `GoodS`, but for `lexIdentifier`, whose output may begin with an
`Identifier` lexeme: the preceding token is the `Dollar` just emitted by
`lexStart`. -/
structure GoodI (r : List Lexeme × LexState) : Prop where
  shape : Shape r.1
  cont : r.2 ≠ LexState.start → ContShape r.1
  noSemi : ∀ l ∈ r.1, l.tok ≠ Tok.semicolon
  pipeText : ∀ l ∈ r.1, l.tok = Tok.pipe → l.text = ['|']
  identOk : identOkFrom Tok.dollar r.1

theorem wsPre_tok (line : List Char) : ∀ l ∈ wsPre line, l.tok = Tok.whitespace := by
  unfold wsPre
  split
  · simp
  · simp

theorem shape_prepend (front out : List Lexeme) (hf : NoTerm front) (h : Shape out) :
    Shape (front ++ out) := by
  obtain ⟨body, t, hout, hb, ht⟩ := h
  refine ⟨front ++ body, t, ?_, ?_, ht⟩
  · rw [hout, List.append_assoc]
  · intro l hl
    rcases List.mem_append.mp hl with h1 | h2
    · exact hf l h1
    · exact hb l h2

theorem contShape_prepend (front out : List Lexeme) (h : ContShape out) :
    ContShape (front ++ out) := by
  obtain ⟨body, s, r, hout⟩ := h
  exact ⟨front ++ body, s, r, by rw [hout, List.append_assoc]⟩

theorem noTerm_wsPre (line : List Char) : NoTerm (wsPre line) := by
  intro l hl
  have := wsPre_tok line l hl
  simp [this]

theorem identOkFrom_wsPre (line : List Char) (rest : List Lexeme)
    (h : ∀ p, identOkFrom p rest) : ∀ p, identOkFrom p (wsPre line ++ rest) := by
  intro p
  unfold wsPre
  split
  · simpa using h p
  · simpa [identOkFrom] using h Tok.whitespace

/-- Package the invariants of a `lexStart` result from the invariants of
everything emitted after the leading-whitespace lexeme. -/
theorem goodS_of_rest (line : List Char) (rest : List Lexeme) (st : LexState)
    (h1 : Shape rest)
    (h2 : st ≠ LexState.start → ContShape rest)
    (h3 : ∀ l ∈ rest, l.tok ≠ Tok.semicolon)
    (h4 : ∀ l ∈ rest, l.tok = Tok.pipe → l.text = ['|'])
    (h5 : ∀ p, identOkFrom p rest) :
    GoodS (wsPre line ++ rest, st) := by
  refine ⟨?_, ?_, ?_, ?_, ?_⟩
  · exact shape_prepend _ _ (noTerm_wsPre line) h1
  · intro hne
    exact contShape_prepend _ _ (h2 hne)
  · intro l hl
    rcases List.mem_append.mp hl with hm | hm
    · simp [wsPre_tok line l hm]
    · exact h3 l hm
  · intro l hl
    rcases List.mem_append.mp hl with hm | hm
    · intro hp
      rw [wsPre_tok line l hm] at hp
      exact absurd hp (by simp)
    · exact h4 l hm
  · exact identOkFrom_wsPre line rest h5

/-- Push the invariants through a non-terminal, non-semicolon,
non-identifier lexeme consed onto a good result. -/
theorem goodS_cons (a : Lexeme) (r : List Lexeme × LexState) (h : GoodS r)
    (ht1 : a.tok ≠ Tok.newline) (ht2 : a.tok ≠ Tok.escapedNewline)
    (ht3 : a.tok ≠ Tok.semicolon) (ht4 : a.tok = Tok.pipe → a.text = ['|'])
    (ht5 : a.tok ≠ Tok.identifier) :
    GoodS (a :: r.1, r.2) := by
  refine ⟨?_, ?_, ?_, ?_, ?_⟩
  · obtain ⟨body, t, hout, hb, ht⟩ := h.shape
    refine ⟨a :: body, t, by simp [hout], ?_, ht⟩
    intro l hl
    rcases List.mem_cons.mp hl with rfl | hm
    · exact ⟨ht1, ht2⟩
    · exact hb l hm
  · intro hne
    obtain ⟨body, s, rr, hout⟩ := h.cont hne
    exact ⟨a :: body, s, rr, by simp [hout]⟩
  · intro l hl
    rcases List.mem_cons.mp hl with rfl | hm
    · exact ht3
    · exact h.noSemi l hm
  · intro l hl
    rcases List.mem_cons.mp hl with rfl | hm
    · exact ht4
    · exact h.pipeText l hm
  · intro p
    exact ⟨fun hid => absurd hid ht5, h.identOk a.tok⟩

/-- The invariants hold for a two-lexeme `SubString`/`Newline` emission
(the two continuation branches of `quoted` and `lexUnquoted`). -/
theorem goodS_sub_nl (s r : List Char) (st : LexState) :
    GoodS ([⟨Tok.subString, s⟩, ⟨Tok.newline, r⟩], st) := by
  refine ⟨?_, ?_, ?_, ?_, ?_⟩
  · exact ⟨[⟨Tok.subString, s⟩], ⟨Tok.newline, r⟩, rfl, by simp [NoTerm], Or.inl rfl⟩
  · intro _
    exact ⟨[], s, r, rfl⟩
  · intro l hl
    rcases List.mem_cons.mp hl with rfl | hm
    · simp
    · simp at hm
      simp [hm]
  · intro l hl
    rcases List.mem_cons.mp hl with rfl | hm
    · simp
    · simp at hm
      simp [hm]
  · intro p
    exact ⟨by simp, by simp [identOkFrom]⟩

/-- Case lemma: a whitespace-only line emits exactly a `Newline`. -/
theorem lexerGood_case1 (line : List Char)
    (h : line.dropWhile (fun c => whitespaceChars.contains c) = []) :
    GoodS (lexStart line) := by
  rw [lexStart_nil_case line h]
  refine goodS_of_rest line _ _ ?_ ?_ ?_ ?_ ?_
  · exact ⟨[], ⟨Tok.newline, []⟩, rfl, by simp [NoTerm], Or.inl rfl⟩
  · intro hne
    exact absurd rfl hne
  · intro l hl
    simp at hl
    simp [hl]
  · intro l hl
    simp at hl
    simp [hl]
  · intro p
    exact ⟨by simp, trivial⟩

/-- Case lemma: a lone-backslash line emits exactly an `EscapedNewline`. -/
theorem lexerGood_case2 (line : List Char) (c : Char) (cs : List Char)
    (h : line.dropWhile (fun c => whitespaceChars.contains c) = c :: cs)
    (hbs : c = '\\' ∧ cs = []) :
    GoodS (lexStart line) := by
  obtain ⟨rfl, rfl⟩ := hbs
  rw [lexStart_bs_case line h]
  refine goodS_of_rest line _ _ ?_ ?_ ?_ ?_ ?_
  · exact ⟨[], ⟨Tok.escapedNewline, ['\\']⟩, rfl, by simp [NoTerm], Or.inr ⟨rfl, rfl⟩⟩
  · intro hne
    exact absurd rfl hne
  · intro l hl
    simp at hl
    simp [hl]
  · intro l hl
    simp at hl
    simp [hl]
  · intro p
    exact ⟨by simp, trivial⟩

theorem lexerGood_case3 (line cs : List Char)
    (h : line.dropWhile (fun c => whitespaceChars.contains c) = '$' :: cs)
    (ih : GoodI (lexIdentifier cs)) :
    GoodS (lexStart line) := by
  rw [lexStart_dollar_case line cs h]
  refine goodS_of_rest line _ _ ?_ ?_ ?_ ?_ ?_
  · refine shape_prepend [⟨Tok.dollar, ['$']⟩] _ ?_ ih.shape
    simp [NoTerm]
  · intro hne
    exact contShape_prepend [⟨Tok.dollar, ['$']⟩] _ (ih.cont hne)
  · intro l hl
    rcases List.mem_cons.mp hl with rfl | hm
    · simp
    · exact ih.noSemi l hm
  · intro l hl
    rcases List.mem_cons.mp hl with rfl | hm
    · simp
    · exact ih.pipeText l hm
  · intro p
    exact ⟨by simp, ih.identOk⟩

theorem lexerGood_case4 (line cs : List Char)
    (h : line.dropWhile (fun c => whitespaceChars.contains c) = '|' :: cs)
    (ih : GoodS (lexStart cs)) :
    GoodS (lexStart line) := by
  rw [lexStart_pipe_case line cs h]
  refine goodS_of_rest line _ _ ?_ ?_ ?_ ?_ ?_ <;>
    have hc := goodS_cons ⟨Tok.pipe, ['|']⟩ _ ih (by simp) (by simp) (by simp)
      (by simp) (by simp)
  · exact hc.shape
  · exact hc.cont
  · exact hc.noSemi
  · exact hc.pipeText
  · exact hc.identOk

theorem lexerGood_case5 (line cs : List Char)
    (h : line.dropWhile (fun c => whitespaceChars.contains c) = '~' :: cs)
    (ih : GoodS (lexStart cs)) :
    GoodS (lexStart line) := by
  rw [lexStart_tilde_case line cs h]
  refine goodS_of_rest line _ _ ?_ ?_ ?_ ?_ ?_ <;>
    have hc := goodS_cons ⟨Tok.tilde, ['~']⟩ _ ih (by simp) (by simp) (by simp)
      (by simp) (by simp)
  · exact hc.shape
  · exact hc.cont
  · exact hc.noSemi
  · exact hc.pipeText
  · exact hc.identOk

theorem lexerGood_case6 (line cs : List Char)
    (h : line.dropWhile (fun c => whitespaceChars.contains c) = '\'' :: cs)
    (ih : GoodS (quoted '\'' LexState.singleQ cs)) :
    GoodS (lexStart line) := by
  rw [lexStart_squote_case line cs h]
  exact goodS_of_rest line _ _ ih.shape ih.cont ih.noSemi ih.pipeText ih.identOk

theorem lexerGood_case7 (line cs : List Char)
    (h : line.dropWhile (fun c => whitespaceChars.contains c) = '"' :: cs)
    (ih : GoodS (quoted '"' LexState.doubleQ cs)) :
    GoodS (lexStart line) := by
  rw [lexStart_dquote_case line cs h]
  exact goodS_of_rest line _ _ ih.shape ih.cont ih.noSemi ih.pipeText ih.identOk

theorem lexerGood_case8 (line : List Char) (c : Char) (cs : List Char)
    (h : line.dropWhile (fun x => whitespaceChars.contains x) = c :: cs)
    (hbs : ¬(c = '\\' ∧ cs = [])) (h1 : ¬c = '$') (h2 : ¬c = '|') (h3 : ¬c = '~')
    (h4 : ¬c = '\'') (h5 : ¬c = '"')
    (ih : GoodS (lexUnquoted (c :: cs))) :
    GoodS (lexStart line) := by
  rw [lexStart_word_case line c cs h hbs h1 h2 h3 h4 h5]
  exact goodS_of_rest line _ _ ih.shape ih.cont ih.noSemi ih.pipeText ih.identOk

theorem lexerGood_case9 (line : List Char)
    (h : line.drop (decodeString false unquotedDelims line).2 = ['\\']) :
    GoodS (lexUnquoted line) := by
  rw [lexUnquoted_cont_case line h]
  exact goodS_sub_nl _ _ _

theorem lexerGood_case10 (line : List Char)
    (h : ¬line.drop (decodeString false unquotedDelims line).2 = ['\\'])
    (ih : GoodS (lexStart (line.drop (decodeString false unquotedDelims line).2))) :
    GoodS (lexUnquoted line) := by
  rw [lexUnquoted_word_case line h]
  exact goodS_cons _ _ ih (by simp) (by simp) (by simp) (by simp) (by simp)

theorem lexerGood_case11 (next : LexState) (line : List Char) (r : Char) (rs : List Char)
    (h : line.drop (decodeString true [r] line).2 = r :: rs)
    (ih : GoodS (lexStart rs)) :
    GoodS (quoted r next line) := by
  rw [quoted_close_case r next line rs h]
  exact goodS_cons _ _ ih (by simp) (by simp) (by simp) (by simp) (by simp)

theorem lexerGood_case12 (q : Char) (next : LexState) (line : List Char) (r : Char)
    (rs : List Char) (h : line.drop (decodeString true [q] line).2 = r :: rs)
    (hq : ¬r = q) :
    GoodS (quoted q next line) := by
  rw [quoted_cont_case q next line r rs h hq]
  exact goodS_sub_nl _ _ _

theorem lexerGood_case13 (q : Char) (next : LexState) (line : List Char)
    (h : line.drop (decodeString true [q] line).2 = []) :
    GoodS (quoted q next line) := by
  rw [quoted_eol_case q next line h]
  exact goodS_sub_nl _ _ _

theorem lexerGood_case14 (ih : GoodS (lexStart [])) : GoodI (lexIdentifier []) := by
  rw [lexIdentifier_nil]
  exact ⟨ih.shape, ih.cont, ih.noSemi, ih.pipeText, ih.identOk Tok.dollar⟩

theorem lexerGood_case15 (d : Char) (ds : List Char)
    (h : (d.isAlpha || d = '_') = true)
    (ih : GoodS (lexStart (ds.dropWhile (fun x => x.isAlpha || x.isDigit || x = '_')))) :
    GoodI (lexIdentifier (d :: ds)) := by
  rw [lexIdentifier_ident d ds h]
  refine ⟨?_, ?_, ?_, ?_, ?_⟩
  · obtain ⟨body, t, hout, hb, ht⟩ := ih.shape
    refine ⟨⟨Tok.identifier, d :: ds.takeWhile (fun x => x.isAlpha || x.isDigit || x = '_')⟩ ::
      body, t, by simp [hout], ?_, ht⟩
    intro l hl
    rcases List.mem_cons.mp hl with rfl | hm
    · simp
    · exact hb l hm
  · intro hne
    obtain ⟨body, s, rr, hout⟩ := ih.cont hne
    exact ⟨⟨Tok.identifier, d :: ds.takeWhile (fun x => x.isAlpha || x.isDigit || x = '_')⟩ ::
      body, s, rr, by simp [hout]⟩
  · intro l hl
    rcases List.mem_cons.mp hl with rfl | hm
    · simp
    · exact ih.noSemi l hm
  · intro l hl
    rcases List.mem_cons.mp hl with rfl | hm
    · simp
    · exact ih.pipeText l hm
  · exact ⟨fun _ => rfl, ih.identOk Tok.identifier⟩

theorem lexerGood_case16 (d : Char) (ds : List Char)
    (h : ¬(d.isAlpha || d = '_') = true)
    (ih : GoodS (lexStart (d :: ds))) :
    GoodI (lexIdentifier (d :: ds)) := by
  rw [lexIdentifier_other d ds (by simpa using h)]
  exact ⟨ih.shape, ih.cont, ih.noSemi, ih.pipeText, ih.identOk Tok.dollar⟩

/-- Every `lexStart` emission satisfies the stream invariants. -/
theorem lexStart_good (line : List Char) : GoodS (lexStart line) :=
  lexStart.induct (fun line => GoodS (lexStart line)) (fun line => GoodS (lexUnquoted line))
    (fun q next line => GoodS (quoted q next line)) (fun line => GoodI (lexIdentifier line))
    lexerGood_case1
    lexerGood_case2
    (fun line cs h _ ih => lexerGood_case3 line cs h ih)
    (fun line cs h _ _ ih => lexerGood_case4 line cs h ih)
    (fun line cs h _ _ _ ih => lexerGood_case5 line cs h ih)
    (fun line cs h _ _ _ _ ih => lexerGood_case6 line cs h ih)
    (fun line cs h _ _ _ _ _ ih => lexerGood_case7 line cs h ih)
    lexerGood_case8
    lexerGood_case9
    lexerGood_case10
    lexerGood_case11
    lexerGood_case12
    lexerGood_case13
    lexerGood_case14
    lexerGood_case15
    lexerGood_case16
    line

/-- Every `lexUnquoted` emission satisfies the stream invariants. -/
theorem lexUnquoted_good (line : List Char) : GoodS (lexUnquoted line) :=
  lexUnquoted.induct (fun line => GoodS (lexStart line)) (fun line => GoodS (lexUnquoted line))
    (fun q next line => GoodS (quoted q next line)) (fun line => GoodI (lexIdentifier line))
    lexerGood_case1
    lexerGood_case2
    (fun line cs h _ ih => lexerGood_case3 line cs h ih)
    (fun line cs h _ _ ih => lexerGood_case4 line cs h ih)
    (fun line cs h _ _ _ ih => lexerGood_case5 line cs h ih)
    (fun line cs h _ _ _ _ ih => lexerGood_case6 line cs h ih)
    (fun line cs h _ _ _ _ _ ih => lexerGood_case7 line cs h ih)
    lexerGood_case8
    lexerGood_case9
    lexerGood_case10
    lexerGood_case11
    lexerGood_case12
    lexerGood_case13
    lexerGood_case14
    lexerGood_case15
    lexerGood_case16
    line

/-- Every `quoted` emission satisfies the stream invariants. -/
theorem quoted_good (q : Char) (next : LexState) (line : List Char) :
    GoodS (quoted q next line) :=
  quoted.induct (fun line => GoodS (lexStart line)) (fun line => GoodS (lexUnquoted line))
    (fun q next line => GoodS (quoted q next line)) (fun line => GoodI (lexIdentifier line))
    lexerGood_case1
    lexerGood_case2
    (fun line cs h _ ih => lexerGood_case3 line cs h ih)
    (fun line cs h _ _ ih => lexerGood_case4 line cs h ih)
    (fun line cs h _ _ _ ih => lexerGood_case5 line cs h ih)
    (fun line cs h _ _ _ _ ih => lexerGood_case6 line cs h ih)
    (fun line cs h _ _ _ _ _ ih => lexerGood_case7 line cs h ih)
    lexerGood_case8
    lexerGood_case9
    lexerGood_case10
    lexerGood_case11
    lexerGood_case12
    lexerGood_case13
    lexerGood_case14
    lexerGood_case15
    lexerGood_case16
    q next line

/-- Every emission of one fed line satisfies the stream invariants,
whatever state the lexer was left in by the previous lines. -/
theorem lexLine_good (st : LexState) (line : List Char) : GoodS (lexLine st line) := by
  cases st with
  | start => exact lexStart_good line
  | singleQ => exact quoted_good '\'' LexState.singleQ line
  | doubleQ => exact quoted_good '"' LexState.doubleQ line
  | unquoted => exact lexUnquoted_good line

/-! ### Word texts on backslash-free, quote-free lines

On a line with no backslash and no quote characters, every `|` is lexed
as its own `Pipe` lexeme and never becomes part of a `String`/`SubString`
text. -/

/-- A line with no backslash and no quote characters: every character is
unquoted and unescaped. -/
def BSQFree (line : List Char) : Prop :=
  ∀ c ∈ line, c ≠ '\\' ∧ c ≠ '\'' ∧ c ≠ '"'

/-- No `String` or `SubString` lexeme of the list carries a `|`. -/
def PipeFreeTexts (out : List Lexeme) : Prop :=
  ∀ l ∈ out, (l.tok = Tok.string ∨ l.tok = Tok.subString) → '|' ∉ l.text

theorem BSQFree_mono (l l2 : List Char) (hsub : l2 ⊆ l) (h : BSQFree l) : BSQFree l2 :=
  fun c hc => h c (hsub hc)

theorem decodeString_mem_of_no_bs (q : Bool) (d : List Char) (l : List Char)
    (h : ∀ c ∈ l, c ≠ '\\') :
    ∀ x ∈ (decodeString q d l).1, (x ∈ l ∧ d.contains x = false) ∨ x = '\n' := by
  induction l with
  | nil =>
    intro x hx
    rw [decodeString_nil] at hx
    cases q with
    | true =>
      simp at hx
      exact Or.inr hx
    | false => simp at hx
  | cons c cs ih =>
    have hc : c ≠ '\\' := h c (by simp)
    by_cases hdel : d.contains c
    · rw [decodeString_delim q d c cs hc hdel]
      intro x hx
      simp at hx
    · rw [decodeString_plain q d c cs hc (by simpa using hdel)]
      intro x hx
      rcases List.mem_cons.mp hx with rfl | hm
      · exact Or.inl ⟨by simp, by simpa using hdel⟩
      · rcases ih (fun y hy => h y (by simp [hy])) x hm with ⟨hml, hdl⟩ | hnl
        · exact Or.inl ⟨by simp [hml], hdl⟩
        · exact Or.inr hnl

theorem pipeFree_wsPre (line : List Char) (rest : List Lexeme)
    (h : PipeFreeTexts rest) : PipeFreeTexts (wsPre line ++ rest) := by
  intro l hl
  rcases List.mem_append.mp hl with hm | hm
  · intro hk
    rw [wsPre_tok line l hm] at hk
    rcases hk with hk | hk <;> exact absurd hk (by simp)
  · exact h l hm

/-- A one-lexeme prefix whose token is not `String`/`SubString` preserves
pipe-freedom. -/
theorem pipeFree_cons (a : Lexeme) (rest : List Lexeme) (ha1 : a.tok ≠ Tok.string)
    (ha2 : a.tok ≠ Tok.subString) (h : PipeFreeTexts rest) :
    PipeFreeTexts (a :: rest) := by
  intro l hl
  rcases List.mem_cons.mp hl with rfl | hm
  · intro hk
    rcases hk with hk | hk
    · exact absurd hk ha1
    · exact absurd hk ha2
  · exact h l hm

theorem mem_of_dropWhile_eq (p : Char → Bool) (l l2 : List Char)
    (h : l.dropWhile p = l2) : l2 ⊆ l := by
  intro x hx
  rw [← h] at hx
  exact (List.dropWhile_sublist p).subset hx

theorem pipeFree_case_quote (line cs : List Char) (c : Char)
    (h : line.dropWhile (fun x => whitespaceChars.contains x) = c :: cs)
    (hq : c = '\'' ∨ c = '"') (hbsq : BSQFree line) :
    PipeFreeTexts (lexStart line).1 := by
  have hmem : c ∈ line :=
    mem_of_dropWhile_eq (fun x => whitespaceChars.contains x) line (c :: cs) h (by simp)
  rcases hq with rfl | rfl
  · exact absurd rfl (hbsq '\'' hmem).2.1
  · exact absurd rfl (hbsq '"' hmem).2.2

theorem pipeFree_cons_string (t : List Char) (rest : List Lexeme) (ht : '|' ∉ t)
    (h : PipeFreeTexts rest) : PipeFreeTexts (⟨Tok.string, t⟩ :: rest) := by
  intro l hl
  rcases List.mem_cons.mp hl with rfl | hm
  · intro _
    exact ht
  · exact h l hm

theorem pipeFree_terminal (t : Lexeme) (ht : t.tok ≠ Tok.string ∧ t.tok ≠ Tok.subString) :
    PipeFreeTexts [t] := by
  intro l hl
  simp at hl
  subst hl
  intro hk
  rcases hk with hk | hk
  · exact absurd hk ht.1
  · exact absurd hk ht.2

/-- Case lemma for the `$`, `|` and `~` branches of `lexStart`, which all
prepend a non-word lexeme. -/
theorem pipeFree_sigil (line cs : List Char) (c : Char) (a : Lexeme)
    (ha1 : a.tok ≠ Tok.string) (ha2 : a.tok ≠ Tok.subString)
    (h : line.dropWhile (fun x => whitespaceChars.contains x) = c :: cs)
    (hbsq : BSQFree line) (rest : List Lexeme)
    (ih : BSQFree cs → PipeFreeTexts rest) :
    PipeFreeTexts (wsPre line ++ a :: rest) := by
  refine pipeFree_wsPre line _ (pipeFree_cons a rest ha1 ha2 (ih ?_))
  refine BSQFree_mono line cs ?_ hbsq
  intro x hx
  exact mem_of_dropWhile_eq _ line (c :: cs) h (by simp [hx])

/-- Every `String`/`SubString` text emitted by `lexStart` on a
backslash-free, quote-free line is free of `|`: the amended form of "an
unquoted unescaped `|` is never part of a word". -/
theorem lexStart_pipe_free (line : List Char) :
    BSQFree line → PipeFreeTexts (lexStart line).1 :=
  lexStart.induct (fun line => BSQFree line → PipeFreeTexts (lexStart line).1)
    (fun line => BSQFree line → PipeFreeTexts (lexUnquoted line).1)
    (fun _ _ _ => True)
    (fun line => BSQFree line → PipeFreeTexts (lexIdentifier line).1)
    (fun line hdw _ => by
      rw [lexStart_nil_case line hdw]
      exact pipeFree_wsPre line _ (pipeFree_terminal _ (by simp)))
    (fun line c cs hdw hbs _ => by
      obtain ⟨rfl, rfl⟩ := hbs
      rw [lexStart_bs_case line hdw]
      exact pipeFree_wsPre line _ (pipeFree_terminal _ (by simp)))
    (fun line cs hdw _ ih hbsq => by
      rw [lexStart_dollar_case line cs hdw]
      exact pipeFree_sigil line cs '$' _ (by simp) (by simp) hdw hbsq _ ih)
    (fun line cs hdw _ _ ih hbsq => by
      rw [lexStart_pipe_case line cs hdw]
      exact pipeFree_sigil line cs '|' _ (by simp) (by simp) hdw hbsq _ ih)
    (fun line cs hdw _ _ _ ih hbsq => by
      rw [lexStart_tilde_case line cs hdw]
      exact pipeFree_sigil line cs '~' _ (by simp) (by simp) hdw hbsq _ ih)
    (fun line cs hdw _ _ _ _ _ hbsq => pipeFree_case_quote line cs '\'' hdw (Or.inl rfl) hbsq)
    (fun line cs hdw _ _ _ _ _ _ hbsq => pipeFree_case_quote line cs '"' hdw (Or.inr rfl) hbsq)
    (fun line c cs hdw hbs h1 h2 h3 h4 h5 ih hbsq => by
      rw [lexStart_word_case line c cs hdw hbs h1 h2 h3 h4 h5]
      refine pipeFree_wsPre line _ (ih ?_)
      refine BSQFree_mono line (c :: cs) ?_ hbsq
      exact mem_of_dropWhile_eq _ line (c :: cs) hdw)
    (fun line hdr hbsq => by
      exfalso
      have hmem : '\\' ∈ line := by
        have hin : ('\\' : Char) ∈ line.drop (decodeString false unquotedDelims line).2 := by
          rw [hdr]
          simp
        exact (List.drop_sublist _ _).subset hin
      exact absurd rfl (hbsq '\\' hmem).1)
    (fun line hdr ih hbsq => by
      rw [lexUnquoted_word_case line hdr]
      have hnb : ∀ c ∈ line, c ≠ '\\' := fun c hc => (hbsq c hc).1
      refine pipeFree_cons_string _ _ ?_ (ih (BSQFree_mono line _ (List.drop_subset _ _) hbsq))
      intro hpipe
      rcases decodeString_mem_of_no_bs false unquotedDelims line hnb '|' hpipe with
        ⟨_, hdl⟩ | hnl
      · rw [show unquotedDelims.contains '|' = true from by decide] at hdl
        exact Bool.noConfusion hdl
      · exact absurd hnl (by decide))
    (fun next line r rs hdr _ => trivial)
    (fun q next line r rs hdr hq => trivial)
    (fun q next line hdr => trivial)
    (fun ih _ => by
      rw [lexIdentifier_nil]
      exact ih (by intro c hc; simp at hc))
    (fun d ds hid ih hbsq => by
      rw [lexIdentifier_ident d ds hid]
      refine pipeFree_cons _ _ (by simp) (by simp) (ih ?_)
      refine BSQFree_mono (d :: ds) _ ?_ hbsq
      intro x hx
      have hxm : x ∈ ds := (List.dropWhile_sublist _).subset hx
      simp [hxm])
    (fun d ds hid ih hbsq => by
      rw [lexIdentifier_other d ds (by simpa using hid)]
      exact ih hbsq)
    line

/-! ## The command tree (ast/ast.go, ast/expr.go) -/

/-- The expression variants `ast.String`, `ast.Tilde` and `ast.Var` from
`ast/expr.go`. -/
inductive Expr where
  | string (text : List Char)
  | tilde (text : List Char)
  | var (identifier : List Char)
deriving DecidableEq, Repr

/-- `ast.Word` from `ast/expr.go`: a word is the concatenation of its
sub-expressions. -/
structure Word where
  subExprs : List Expr
deriving DecidableEq, Repr

/-- The statement variants `ast.StmtList`, `ast.Pipeline` and `ast.Cmd`
from `ast/ast.go`.  In Go, `Cmd.Argv` is a `[]ast.Expr` whose elements are
always the `*ast.Word` values built by `parseWord`; it is typed
accordingly here. -/
inductive Stmt where
  | stmtList (stmts : List Stmt)
  | pipeline (stmts : List Stmt)
  | cmd (argv : List Word)
deriving Repr

/-! ## The parser (parser/parser.go)

The Go parser is a goroutine (`parseStmtList`) that consumes lexemes from
the lexer's channel through one-token lookahead (`peek`/`accept`/`trim`),
signals `done <- false` whenever the fed line was insufficient, and
`done <- true` when a statement (or a recovered parse error) is complete.
Because its recursion (`parseStmtList` → `parseStmt` → `parsePipeline` →
`parseCmd` → `parseWord` → `parseVar`) never holds more than one
incomplete node per production, the suspended coroutine is represented
exactly by a mode carrying those incomplete nodes, and feeding is a fold
of a one-token step function over the lexemes of the fed line.  Each step
returns the optional value sent on the `done` channel while that token
was consumed. -/

/-- `parserError` values raised (as panics) by the parser. -/
inductive PErr where
  | assignmentStmt
  | unexpectedToken (l : Lexeme)
  | wordUnexpectedToken (l : Lexeme)
deriving DecidableEq, Repr

/-- The defunctionalised state of the parser coroutine.

* `stmts acc`: inside `parseStmtList`'s loop, about to `trim`; `acc` holds
  the statements parsed so far.
* `pipe sacc pacc`: inside `parsePipeline`'s loop; `pacc` holds the
  completed stages.
* `cmd sacc pacc argv`: inside `parseCmd`'s loop; `argv` holds the
  completed words.
* `word sacc pacc argv exprs str`: inside `parseWord`'s loop; `exprs`
  holds the completed sub-expressions and `str` the pending string
  fragments (Go's `strings.Builder`).
* `vmode … dollar`: a `Dollar` lexeme of text `dollar` was just accepted
  and `parseVar` is peeking at the next lexeme.
* `drain e`: a parse error was raised and the recovery loop in
  `parseStmtList`'s deferred function is discarding lexemes until the next
  `Newline`/`EscapedNewline`.
* `done stmt err`: no parse is in progress (`p.locked == false`); `stmt`
  and `err` are the fields returned by `Result()`.
* `diverge`: the Go code loops forever consuming nothing (an `Identifier`
  lexeme reaching `parsePipeline`'s loop, whose `parseCmd` returns an
  empty command without consuming it); unreachable from lexer output. -/
inductive PMode where
  | stmts (acc : List Stmt)
  | pipe (sacc pacc : List Stmt)
  | cmd (sacc pacc : List Stmt) (argv : List Word)
  | word (sacc pacc : List Stmt) (argv : List Word) (exprs : List Expr) (str : List Char)
  | vmode (sacc pacc : List Stmt) (argv : List Word) (exprs : List Expr) (str : List Char)
      (dollar : List Char)
  | drain (e : PErr)
  | done (stmt : Option Stmt) (err : Option PErr)
  | diverge
deriving Repr

/-- The error-recovery loop in `parseStmtList`'s deferred function: the
current lexeme is discarded until a `Newline` or `EscapedNewline` has been
consumed, then `done <- true` is sent with `p.err` set. -/
def stepDrain (e : PErr) (l : Lexeme) : PMode × Option Bool :=
  match l.tok with
  | Tok.newline => (PMode.done none (some e), some true)
  | Tok.escapedNewline => (PMode.done none (some e), some true)
  | _ => (PMode.drain e, none)

/-- The lexeme-consuming cases of `parseWord`'s switch: `Newline` with a
pending partial string signals `done <- false` (the string continues on
the next line); `String` flushes the builder into a literal
sub-expression; `SubString` extends the builder; `Dollar` is accepted and
hands over to `parseVar`; `Tilde` appends a tilde sub-expression.  Callers
only invoke this on those five shapes, so the final catch-all is dead. -/
def wordConsume (sacc pacc : List Stmt) (argv : List Word) (exprs : List Expr)
    (str : List Char) (l : Lexeme) : PMode × Option Bool :=
  match l.tok with
  | Tok.newline => (PMode.word sacc pacc argv exprs str, some false)
  | Tok.string => (PMode.word sacc pacc argv (exprs ++ [Expr.string (str ++ l.text)]) [], none)
  | Tok.subString => (PMode.word sacc pacc argv exprs (str ++ l.text), none)
  | Tok.dollar => (PMode.vmode sacc pacc argv exprs str l.text, none)
  | Tok.tilde => (PMode.word sacc pacc argv (exprs ++ [Expr.tilde l.text]) str, none)
  | _ => (PMode.diverge, none)

/-- One lexeme seen from `parseStmtList`'s loop (at `trim`): whitespace is
discarded, an escaped newline additionally signals `done <- false`, a
`Newline` completes the statement list, a `Semicolon` is skipped, and
otherwise `parseStmt` runs — `Dollar` raises the assignment error,
word-starting lexemes enter `parsePipeline`/`parseCmd`/`parseWord`, and
anything else raises an unexpected-token error. -/
def stepStmts (acc : List Stmt) (l : Lexeme) : PMode × Option Bool :=
  match l.tok with
  | Tok.whitespace => (PMode.stmts acc, none)
  | Tok.escapedNewline => (PMode.stmts acc, some false)
  | Tok.newline => (PMode.done (some (Stmt.stmtList acc)) none, some true)
  | Tok.semicolon => (PMode.stmts acc, none)
  | Tok.dollar => stepDrain PErr.assignmentStmt l
  | Tok.string => wordConsume acc [] [] [] [] l
  | Tok.subString => wordConsume acc [] [] [] [] l
  | Tok.tilde => wordConsume acc [] [] [] [] l
  | _ => stepDrain (PErr.unexpectedToken l) l

/-- One lexeme seen from `parsePipeline`'s loop (at `trim`): a `Pipe` is
accepted, a `Semicolon` or `Newline` closes the pipeline and returns it to
`parseStmtList` (which re-examines the same lexeme), a word-starting
lexeme opens the next stage via `parseCmd`, and an `Identifier` makes the
Go loop append empty commands forever. -/
def stepPipe (sacc pacc : List Stmt) (l : Lexeme) : PMode × Option Bool :=
  match l.tok with
  | Tok.whitespace => (PMode.pipe sacc pacc, none)
  | Tok.escapedNewline => (PMode.pipe sacc pacc, some false)
  | Tok.pipe => (PMode.pipe sacc pacc, none)
  | Tok.semicolon => stepStmts (sacc ++ [Stmt.pipeline pacc]) l
  | Tok.newline => stepStmts (sacc ++ [Stmt.pipeline pacc]) l
  | Tok.string => wordConsume sacc pacc [] [] [] l
  | Tok.subString => wordConsume sacc pacc [] [] [] l
  | Tok.dollar => wordConsume sacc pacc [] [] [] l
  | Tok.tilde => wordConsume sacc pacc [] [] [] l
  | Tok.identifier => (PMode.diverge, none)

/-- One lexeme seen from `parseCmd`'s loop (at `trim`): a word-starting
lexeme enters `parseWord`; anything else closes the command, which
`parsePipeline` appends to its stages before re-examining the lexeme. -/
def stepCmd (sacc pacc : List Stmt) (argv : List Word) (l : Lexeme) : PMode × Option Bool :=
  match l.tok with
  | Tok.whitespace => (PMode.cmd sacc pacc argv, none)
  | Tok.escapedNewline => (PMode.cmd sacc pacc argv, some false)
  | Tok.string => wordConsume sacc pacc argv [] [] l
  | Tok.subString => wordConsume sacc pacc argv [] [] l
  | Tok.dollar => wordConsume sacc pacc argv [] [] l
  | Tok.tilde => wordConsume sacc pacc argv [] [] l
  | _ => stepPipe sacc (pacc ++ [Stmt.cmd argv]) l

/-- One lexeme seen from `parseWord`'s loop (at `peek`): word lexemes are
consumed; a `Newline` with pending string fragments signals
`done <- false`; otherwise the word closes (returned to `parseCmd`, which
re-examines the lexeme) if no fragment is pending, and raises the
word-level unexpected-token error (entering recovery at this very lexeme)
if one is. -/
def stepWord (sacc pacc : List Stmt) (argv : List Word) (exprs : List Expr)
    (str : List Char) (l : Lexeme) : PMode × Option Bool :=
  match l.tok with
  | Tok.newline =>
    if str = [] then stepCmd sacc pacc (argv ++ [⟨exprs⟩]) l
    else wordConsume sacc pacc argv exprs str l
  | Tok.string => wordConsume sacc pacc argv exprs str l
  | Tok.subString => wordConsume sacc pacc argv exprs str l
  | Tok.dollar => wordConsume sacc pacc argv exprs str l
  | Tok.tilde => wordConsume sacc pacc argv exprs str l
  | _ =>
    if str = [] then stepCmd sacc pacc (argv ++ [⟨exprs⟩]) l
    else stepDrain (PErr.wordUnexpectedToken l) l

/-- One lexeme seen from `parseVar` (at `peek`): an `Identifier` becomes a
variable-reference sub-expression; any other lexeme turns the pending `$`
into literal text and is re-examined by `parseWord`. -/
def stepVar (sacc pacc : List Stmt) (argv : List Word) (exprs : List Expr)
    (str : List Char) (dollar : List Char) (l : Lexeme) : PMode × Option Bool :=
  match l.tok with
  | Tok.identifier => (PMode.word sacc pacc argv (exprs ++ [Expr.var l.text]) str, none)
  | _ => stepWord sacc pacc argv (exprs ++ [Expr.string dollar]) str l

/-- One lexeme consumed by the parser coroutine, in whatever production it
was suspended. -/
def pstep : PMode → Lexeme → PMode × Option Bool
  | PMode.stmts acc, l => stepStmts acc l
  | PMode.pipe sacc pacc, l => stepPipe sacc pacc l
  | PMode.cmd sacc pacc argv, l => stepCmd sacc pacc argv l
  | PMode.word sacc pacc argv exprs str, l => stepWord sacc pacc argv exprs str l
  | PMode.vmode sacc pacc argv exprs str dollar, l => stepVar sacc pacc argv exprs str dollar l
  | PMode.drain e, l => stepDrain e l
  | PMode.done s e, _ => (PMode.done s e, none)
  | PMode.diverge, _ => (PMode.diverge, none)

/-- Consume a list of lexemes, collecting the values sent on `done`. -/
def stepTokens : PMode → List Lexeme → PMode × List Bool
  | m, [] => (m, [])
  | m, l :: ls =>
    let r := pstep m l
    let k := stepTokens r.1 ls
    (k.1, r.2.toList ++ k.2)

/-- The `Parser` struct: the lexer state it owns plus the coroutine
mode. -/
structure ParserS where
  lexSt : LexState
  mode : PMode

/-- `NewParser`: lexer at `lexStart`; `p.locked == false` and
`p.stmt, p.err == nil, nil`. -/
def newParser : ParserS := ⟨LexState.start, PMode.done none none⟩

/-- `Parser.Parse(line)`: when no statement is in progress a fresh
`parseStmtList` is started (resetting `stmt`, `err` and the accumulated
statements); the line is fed to the lexer and the coroutine consumes
every lexeme the lexer emits for it.  The returned list holds the values
sent on the `done` channel while doing so; `Parse` itself returns the
first of them (exactly one is sent per fed line — see
`parse_signal_unique`). -/
def parse (p : ParserS) (line : List Char) : List Bool × ParserS :=
  let m0 := match p.mode with
    | PMode.done _ _ => PMode.stmts []
    | m => m
  let r := lexLine p.lexSt line
  let s := stepTokens m0 r.1
  (s.2, ⟨r.2, s.1⟩)

/-- `Parser.Result()`: panics (`none`) if called while a statement is
still in progress; otherwise returns `(p.stmt, p.err)`. -/
def result (p : ParserS) : Option (Option Stmt × Option PErr) :=
  match p.mode with
  | PMode.done s e => some (s, e)
  | _ => none

/-- Feed a sequence of lines, collecting each `Parse` call's signals. -/
def parseAll (p : ParserS) : List (List Char) → List (List Bool) × ParserS
  | [] => ([], p)
  | line :: rest =>
    let r := parse p line
    let k := parseAll r.2 rest
    (r.1 :: k.1, k.2)

/-! ## The interpreter (interpreter/interpreter.go, interpreter/builtin.go)

Operating-system effects are oracle fields of an `Env` record: the
process environment (`os.LookupEnv`/`Getenv`/`Setenv`), the home
directory (`os.UserHomeDir`), directory changing (`os.Chdir`), absolute
paths (`filepath.Abs`), and external process execution
(`exec.Command(...).Run()` plus `ProcessState.ExitCode()`).  Errors from
the OS are opaque message strings; the interpreter's own error values
are `IErr`. -/

/-- An error value flowing through the interpreter: either the
distinguished `interpreter.ExitStatus` termination signal, or an ordinary
error identified by its message. -/
inductive IErr where
  | exitStatus (n : Int)
  | msg (s : List Char)
deriving DecidableEq, Repr

/-- `ExitStatus.Error()`: `fmt.Sprintf("exit %d", int(e))`, and the
message of an ordinary error. -/
def errText : IErr → List Char
  | IErr.exitStatus n =>
    "exit ".toList ++ (if n < 0 then '-' :: Nat.toDigits 10 n.natAbs else Nat.toDigits 10 n.natAbs)
  | IErr.msg s => s

/-- The shell-level state and OS oracles visible to the interpreter. -/
structure Env where
  vars : List Char → Option (List Char)
  homeDir : Except (List Char) (List Char)
  chdirErr : List Char → Option (List Char)
  abs : List Char → List Char
  spawn : List (List Char) → Int × Option IErr

/-- `os.Getenv`: the empty string when the variable is unset. -/
def getenv (env : Env) (k : List Char) : List Char := (env.vars k).getD []

/-- `os.Setenv`. -/
def setenv (env : Env) (k v : List Char) : Env :=
  { env with vars := fun k2 => if k2 = k then some v else env.vars k2 }

/-- The shared tail of `cd` (from `interpreter/builtin.go`): record the
old `PWD`, compute the absolute target (ignoring any error, as the Go
code discards it), attempt `os.Chdir`, and only on success update
`OLDPWD` and `PWD`. -/
def cdChdir (env : Env) (target : List Char) : Option IErr × Env :=
  let oldpwd := getenv env "PWD".toList
  let newpwd := env.abs target
  match env.chdirErr target with
  | some e => (some (IErr.msg ("cd: ".toList ++ e)), env)
  | none =>
    (none, setenv (setenv env "OLDPWD".toList oldpwd) "PWD".toList newpwd)

/-- The builtin `cd` from `interpreter/builtin.go`: no argument targets
the home directory; the argument `-` targets `$OLDPWD` (an error if
unset); more than one argument is an error.  The environment is only
modified after a successful `os.Chdir`. -/
def cd (env : Env) (args : List (List Char)) : Option IErr × Env :=
  match args with
  | [] =>
    match env.homeDir with
    | Except.error e => (some (IErr.msg ("cd: ".toList ++ e)), env)
    | Except.ok home => cdChdir env home
  | [a] =>
    if a = "-".toList then
      match env.vars "OLDPWD".toList with
      | none => (some (IErr.msg "cd: OLDPWD not set".toList), env)
      | some v => cdChdir env v
    else cdChdir env a
  | _ => (some (IErr.msg "cd: too many arguments".toList), env)

/-- The digit run of `strconv.Atoi`: all characters must be decimal
digits and there must be at least one. -/
def digitsNat (l : List Char) : Option Nat :=
  if l = [] then none
  else if l.all (fun c => c.isDigit) then
    some (l.foldl (fun acc c => 10 * acc + (c.toNat - '0'.toNat)) 0)
  else none

/-- `strconv.Atoi` on a 64-bit platform: an optional sign, a nonempty
digit run, and a range check against `int64`. -/
def atoi (s : List Char) : Option Int :=
  let signed : Int × List Char :=
    match s with
    | '+' :: r => (1, r)
    | '-' :: r => (-1, r)
    | r => (1, r)
  match digitsNat signed.2 with
  | none => none
  | some n =>
    let v : Int := signed.1 * n
    if -(2 ^ 63) ≤ v ∧ v < 2 ^ 63 then some v else none

/-- The builtin `exit` from `interpreter/builtin.go`: with no argument it
returns the termination signal `ExitStatus(0)`; with one argument that
`strconv.Atoi` accepts it returns `ExitStatus` of that value; otherwise a
usage error.  Note that `exit` always returns a non-nil error value. -/
def exit (args : List (List Char)) : IErr :=
  match args with
  | [] => IErr.exitStatus 0
  | [a] =>
    match atoi a with
    | none => IErr.msg "exit: integer argument required".toList
    | some i => IErr.exitStatus i
  | _ => IErr.msg "exit: too many arguments".toList

/-- `Interpreter.VisitString`, `VisitTilde` and `VisitVar` from
`interpreter/interpreter.go`: a literal evaluates to its text, a tilde to
`os.UserHomeDir()` (propagating its error), a variable reference to
`os.Getenv` (unset variables expand to the empty string, never an
error). -/
def expandExpr (env : Env) : Expr → Except IErr (List Char)
  | Expr.string t => Except.ok t
  | Expr.tilde _ =>
    match env.homeDir with
    | Except.error e => Except.error (IErr.msg e)
    | Except.ok h => Except.ok h
  | Expr.var id => Except.ok (getenv env id)

/-- The loop of `Interpreter.VisitWord`: concatenate the sub-expression
values, stopping at the first error. -/
def expandExprs (env : Env) : List Expr → Except IErr (List Char)
  | [] => Except.ok []
  | e :: es =>
    match expandExpr env e with
    | Except.error err => Except.error err
    | Except.ok s =>
      match expandExprs env es with
      | Except.error err => Except.error err
      | Except.ok rest => Except.ok (s ++ rest)

/-- `Interpreter.VisitWord`. -/
def expandWord (env : Env) (w : Word) : Except IErr (List Char) :=
  expandExprs env w.subExprs

/-- The argv-building loop of `Interpreter.VisitCmd`: expand each word in
order, stopping at the first error (later words are not evaluated). -/
def expandArgv (env : Env) : List Word → Except IErr (List (List Char))
  | [] => Except.ok []
  | w :: ws =>
    match expandWord env w with
    | Except.error e => Except.error e
    | Except.ok s =>
      match expandArgv env ws with
      | Except.error e => Except.error e
      | Except.ok rest => Except.ok (s :: rest)

/-- What `VisitCmd` did after expansion: nothing (an expansion error or
an empty argv), a builtin run in the interpreter's own context, or an
external process spawn. -/
inductive CmdEffect where
  | expandFailed
  | noop
  | builtinRun (name : List Char) (args : List (List Char))
  | spawned (argv : List (List Char))
deriving DecidableEq, Repr

/-- `Interpreter.VisitCmd` from `interpreter/interpreter.go`: expansion
errors return `(-1, err)` with no action taken; an empty argv is a no-op
returning `(0, nil)`; `cd` and `exit` (the `newBuiltin` registry of
`interpreter/builtin.go`) run synchronously, their non-nil error mapped
to `(1, err)` and nil to `(0, nil)`; anything else is spawned as an
external process whose `(ExitCode, err)` is returned. -/
def visitCmd (env : Env) (c : List Word) : (Int × Option IErr) × CmdEffect × Env :=
  match expandArgv env c with
  | Except.error e => ((-1, some e), CmdEffect.expandFailed, env)
  | Except.ok argv =>
    match argv with
    | [] => ((0, none), CmdEffect.noop, env)
    | name :: args =>
      if name = "cd".toList then
        let r := cd env args
        match r.1 with
        | some e => ((1, some e), CmdEffect.builtinRun name args, r.2)
        | none => ((0, none), CmdEffect.builtinRun name args, r.2)
      else if name = "exit".toList then
        ((1, some (exit args)), CmdEffect.builtinRun name args, env)
      else
        (env.spawn (name :: args), CmdEffect.spawned (name :: args), env)

/-- `Interpreter.VisitStmtList` from `interpreter/interpreter.go`, with
each statement's execution outcome supplied as an oracle: execute the
statements in order; return the first erring statement's `(status, err)`
immediately, and otherwise the last statement's (or `(0, nil)` for an
empty list).  The `Nat` counts how many statements were executed. -/
def visitStmtList : List (Int × Option IErr) → (Int × Option IErr) × Nat
  | [] => ((0, none), 0)
  | r :: rs =>
    match r.2 with
    | some _ => (r, 1)
    | none =>
      match rs with
      | [] => (r, 1)
      | _ :: _ =>
        let k := visitStmtList rs
        (k.1, k.2 + 1)

/-- The outcome of `Interpreter.VisitPipeline`. -/
inductive PipeOut where
  | panicked
  | earlyPipeErr (e : List Char) (launched : Nat)
  | completed (r : Int × Option IErr) (joined : Nat)
deriving DecidableEq, Repr

/-- The pipe-creation part of `VisitPipeline`'s loop: a pipe is created
before every stage except the last; a failure at iteration `k` aborts the
loop there (with `k` stages already launched and none joined). -/
def pipesLoop (pipeErr : Nat → Option (List Char)) :
    Nat → List (Int × Option IErr) → Option (List Char × Nat)
  | _, [] => none
  | k, _ :: rest =>
    if rest.isEmpty then none
    else
      match pipeErr k with
      | some e => some (e, k)
      | none => pipesLoop pipeErr (k + 1) rest

/-- `Interpreter.VisitPipeline` from `interpreter/interpreter.go`, with
each stage's `(status, err)` supplied as an oracle (the stages run on
their own goroutines writing into disjoint slots of `statuses`/`errs`,
so their results do not depend on scheduling).  With no stages the
indexing `statuses[len-1]` panics; if `os.Pipe` fails the function
returns `(-1, pipeErr)` without waiting on the already-launched stages;
otherwise `wg.Wait()` joins all the stages and the last stage's pair is
returned, whatever the earlier stages did. -/
def visitPipeline (results : List (Int × Option IErr))
    (pipeErr : Nat → Option (List Char)) : PipeOut :=
  match results with
  | [] => PipeOut.panicked
  | r :: rs =>
    match pipesLoop pipeErr 0 (r :: rs) with
    | some ek => PipeOut.earlyPipeErr ek.1 ek.2
    | none => PipeOut.completed ((r :: rs).getLast (List.cons_ne_nil r rs)) (r :: rs).length

/-! ## The driver loop (`repl` from main.go) -/

/-- One iteration's input to `repl`'s loop: a read error (other than
`io.EOF`, which ends the loop), a parse error, or the `(status, err)`
result of interpreting the parsed statement. -/
inductive ReplEvent where
  | readErr (m : List Char)
  | parseErr (m : List Char)
  | exec (r : Int × Option IErr)
deriving DecidableEq, Repr

/-- `fmt.Fprintf(std.err, "mesh: %v\n", err)`. -/
def meshMsg (m : List Char) : List Char := "mesh: ".toList ++ m ++ ['\n']

/-- The `repl` loop from `main.go`, with the per-line outcomes supplied
as an oracle list (`io.EOF` ends the list): read and parse errors are
reported on stderr and the loop continues (a parse error forces status
1); an interpreter error that is the `ExitStatus` termination signal ends
the loop immediately with exactly that status and prints nothing; any
other interpreter error is reported and forces status 1; otherwise the
statement's status is kept.  Returns the final status and the stderr
log. -/
def replLoop (status : Int) (log : List (List Char)) :
    List ReplEvent → Int × List (List Char)
  | [] => (status, log)
  | ReplEvent.readErr m :: rest => replLoop status (log ++ [meshMsg m]) rest
  | ReplEvent.parseErr m :: rest => replLoop 1 (log ++ [meshMsg m]) rest
  | ReplEvent.exec (s, some err) :: rest =>
    match err with
    | IErr.exitStatus n => (n, log)
    | IErr.msg m => replLoop 1 (log ++ [meshMsg m]) rest
  | ReplEvent.exec (s, none) :: rest => replLoop s log rest

/-- `repl` starts with status 0 and an empty stderr log. -/
def repl (events : List ReplEvent) : Int × List (List Char) :=
  replLoop 0 [] events

/-- A concrete environment used to instantiate theorems with
hypotheses. -/
def sampleEnv : Env where
  vars := fun k => if k = "PWD".toList then some "/old".toList else none
  homeDir := Except.ok "/home/u".toList
  chdirErr := fun t => if t = "/bad".toList then some "no such dir".toList else none
  abs := id
  spawn := fun _ => (0, none)

/-- `sampleEnv` with a failing `os.UserHomeDir`. -/
def sampleEnvNoHome : Env := { sampleEnv with homeDir := Except.error "no home".toList }

/-! ## Supporting lemmas for the interpreter -/

theorem pipesLoop_none (pipeErr : Nat → Option (List Char)) (hp : ∀ k, pipeErr k = none) :
    ∀ l : List (Int × Option IErr), ∀ k, pipesLoop pipeErr k l = none := by
  intro l
  induction l with
  | nil =>
    intro k
    rfl
  | cons r rs ih =>
    intro k
    by_cases he : rs.isEmpty
    · simp [pipesLoop, he]
    · simp [pipesLoop, he, hp k, ih (k + 1)]

theorem visitStmtList_cons_err (r : Int × Option IErr) (rs : List (Int × Option IErr))
    (e : IErr) (h : r.2 = some e) : visitStmtList (r :: rs) = (r, 1) := by
  simp [visitStmtList, h]

theorem visitStmtList_cons_ok (r : Int × Option IErr) (rs : List (Int × Option IErr))
    (h : r.2 = none) (hne : rs ≠ []) :
    visitStmtList (r :: rs) = ((visitStmtList rs).1, (visitStmtList rs).2 + 1) := by
  cases rs with
  | nil => exact absurd rfl hne
  | cons a as => simp [visitStmtList, h]

theorem visitStmtList_single (r : Int × Option IErr) (h : r.2 = none) :
    visitStmtList [r] = (r, 1) := by
  simp [visitStmtList, h]

theorem getLastD_of_ne_nil (rs : List (Int × Option IErr)) (hne : rs ≠ [])
    (x y : Int × Option IErr) : rs.getLastD x = rs.getLastD y := by
  cases rs with
  | nil => exact absurd rfl hne
  | cons a as => rw [List.getLastD_cons, List.getLastD_cons]

theorem setenv_same (env : Env) (k v : List Char) : (setenv env k v).vars k = some v := by
  simp [setenv]

theorem setenv_other (env : Env) (k v k2 : List Char) (h : k2 ≠ k) :
    (setenv env k v).vars k2 = env.vars k2 := by
  simp [setenv, h]

theorem cdChdir_err (env : Env) (t : List Char) (h : (cdChdir env t).1.isSome) :
    (cdChdir env t).2 = env := by
  unfold cdChdir at *
  cases hc : env.chdirErr t with
  | none => simp [hc] at h
  | some e => simp [hc]

theorem cdChdir_ok (env : Env) (t : List Char) (h : (cdChdir env t).1 = none) :
    env.chdirErr t = none ∧
      (cdChdir env t).2 = setenv (setenv env "OLDPWD".toList (getenv env "PWD".toList))
        "PWD".toList (env.abs t) := by
  unfold cdChdir at *
  cases hc : env.chdirErr t with
  | none => simp [hc]
  | some e => simp [hc] at h

/-! ## Claim theorems -/

/-- **C1** — For every pipeline of N stages executed by `VisitPipeline`
(N ≥ 1, and with `os.Pipe` succeeding so that the pipeline actually runs
its stages), the returned `(status, error)` pair is exactly the pair of
the last stage, whatever the earlier stages returned, and the evaluation
completes only after all N stage tasks have been joined. -/
theorem claim_C1 (results : List (Int × Option IErr)) (pipeErr : Nat → Option (List Char))
    (hne : results ≠ []) (hp : ∀ k, pipeErr k = none) :
    visitPipeline results pipeErr =
      PipeOut.completed (results.getLast hne) results.length := by
  cases results with
  | nil => exact absurd rfl hne
  | cons r rs =>
    simp [visitPipeline, pipesLoop_none pipeErr hp]

/-- Witness for C1: a two-stage pipeline whose first stage fails with
status 2 still reports the last stage's `(0, nil)`, with both stages
joined. -/
theorem claim_C1_witness :
    visitPipeline [((2 : Int), some (IErr.msg "boom".toList)), ((0 : Int), none)]
      (fun _ => none) = PipeOut.completed (0, none) 2 := by
  have h := claim_C1 [((2 : Int), some (IErr.msg "boom".toList)), ((0 : Int), none)]
    (fun _ => none) (by simp) (fun _ => rfl)
  simpa using h

/-- **C6** — `VisitStmtList` executes statements in order; the first
statement whose execution returns a non-nil error ends the loop with that
statement's `(status, error)` and the following statements are not
executed (the executed count is the erring statement's position); if no
statement errs, the last statement's pair is returned (`(0, nil)` for an
empty list, the Go zero values). -/
theorem claim_C6 :
    (∀ (pre : List (Int × Option IErr)) (r : Int × Option IErr)
      (post : List (Int × Option IErr)),
      (∀ x ∈ pre, x.2 = none) → r.2.isSome →
      visitStmtList (pre ++ r :: post) = (r, pre.length + 1)) ∧
    (∀ rs : List (Int × Option IErr), (∀ x ∈ rs, x.2 = none) →
      visitStmtList rs = (rs.getLastD (0, none), rs.length)) := by
  constructor
  · intro pre
    induction pre with
    | nil =>
      intro r post _ hr
      cases hr2 : r.2 with
      | none => simp [hr2] at hr
      | some e => simpa using visitStmtList_cons_err r post e hr2
    | cons p ps ih =>
      intro r post hpre hr
      have hp2 : p.2 = none := hpre p (by simp)
      have hne : ps ++ r :: post ≠ [] := by simp
      rw [List.cons_append, visitStmtList_cons_ok p (ps ++ r :: post) hp2 hne]
      rw [ih r post (fun x hx => hpre x (by simp [hx])) hr]
      simp
  · intro rs
    induction rs with
    | nil =>
      intro _
      rfl
    | cons r rs ih =>
      intro h
      have hr2 : r.2 = none := h r (by simp)
      cases rs with
      | nil => simpa [List.getLastD_cons] using visitStmtList_single r hr2
      | cons a as =>
        rw [visitStmtList_cons_ok r (a :: as) hr2 (by simp)]
        rw [ih (fun x hx => h x (by simp [hx]))]
        simp [List.getLastD_cons]

/-- Witness for C6: a list erring at its second statement stops there
with that pair, and an error-free list returns its last pair. -/
theorem claim_C6_witness :
    visitStmtList [((0 : Int), none), ((5 : Int), some (IErr.msg "e".toList)),
      ((7 : Int), none)] = ((5, some (IErr.msg "e".toList)), 2) ∧
    visitStmtList [((0 : Int), (none : Option IErr)), ((3 : Int), none)] = ((3, none), 2) := by
  constructor
  · have h := claim_C6.1 [((0 : Int), none)] ((5 : Int), some (IErr.msg "e".toList))
      [((7 : Int), none)] (by simp) (by simp)
    simpa using h
  · have h := claim_C6.2 [((0 : Int), (none : Option IErr)), ((3 : Int), none)] (by simp)
    simpa using h

/-- **C9** — `cd` is atomic with respect to the environment: whenever it
returns an error (wrong argument count, unset `OLDPWD`, failed
`os.UserHomeDir`, or failed `os.Chdir`), the environment is completely
unchanged — in particular `PWD` and `OLDPWD` keep their values; on
success `os.Chdir` succeeded on the chosen target and `PWD`/`OLDPWD` are
updated to the absolute target and the previous `PWD`. -/
theorem claim_C9 :
    (∀ (env : Env) (args : List (List Char)),
      (cd env args).1.isSome → (cd env args).2 = env) ∧
    (∀ (env : Env) (args : List (List Char)),
      (cd env args).1 = none →
      ∃ target, env.chdirErr target = none ∧
        (cd env args).2.vars "PWD".toList = some (env.abs target) ∧
        (cd env args).2.vars "OLDPWD".toList = some (getenv env "PWD".toList)) := by
  have hkey : "OLDPWD".toList ≠ "PWD".toList := by decide
  have upd : ∀ (env : Env) (t : List Char), (cdChdir env t).1 = none →
      env.chdirErr t = none ∧
      (cdChdir env t).2.vars "PWD".toList = some (env.abs t) ∧
      (cdChdir env t).2.vars "OLDPWD".toList = some (getenv env "PWD".toList) := by
    intro env t h
    obtain ⟨hc, henv⟩ := cdChdir_ok env t h
    refine ⟨hc, ?_, ?_⟩
    · rw [henv, setenv_same]
    · rw [henv, setenv_other _ _ _ _ hkey, setenv_same]
  constructor
  · intro env args h
    match args with
    | [] =>
      have e0 : cd env [] = (match env.homeDir with
        | Except.error e => (some (IErr.msg ("cd: ".toList ++ e)), env)
        | Except.ok home => cdChdir env home) := rfl
      cases hh : env.homeDir with
      | error e =>
        rw [e0, hh]
      | ok home =>
        rw [e0, hh] at h ⊢
        exact cdChdir_err env home h
    | [a] =>
      have e1 : cd env [a] = (if a = "-".toList then
          (match env.vars "OLDPWD".toList with
            | none => (some (IErr.msg "cd: OLDPWD not set".toList), env)
            | some v => cdChdir env v)
          else cdChdir env a) := rfl
      by_cases ha : a = "-".toList
      · rw [e1, if_pos ha] at h ⊢
        cases ho : env.vars "OLDPWD".toList with
        | none => rfl
        | some v =>
          rw [ho] at h
          exact cdChdir_err env v h
      · rw [e1, if_neg ha] at h ⊢
        exact cdChdir_err env a h
    | a :: b :: rest => rfl
  · intro env args h
    match args with
    | [] =>
      have e0 : cd env [] = (match env.homeDir with
        | Except.error e => (some (IErr.msg ("cd: ".toList ++ e)), env)
        | Except.ok home => cdChdir env home) := rfl
      cases hh : env.homeDir with
      | error e =>
        rw [e0, hh] at h
        exact Option.noConfusion h
      | ok home =>
        rw [e0, hh] at h ⊢
        exact ⟨home, upd env home h⟩
    | [a] =>
      have e1 : cd env [a] = (if a = "-".toList then
          (match env.vars "OLDPWD".toList with
            | none => (some (IErr.msg "cd: OLDPWD not set".toList), env)
            | some v => cdChdir env v)
          else cdChdir env a) := rfl
      by_cases ha : a = "-".toList
      · rw [e1, if_pos ha] at h ⊢
        cases ho : env.vars "OLDPWD".toList with
        | none =>
          rw [ho] at h
          exact Option.noConfusion h
        | some v =>
          rw [ho] at h
          exact ⟨v, upd env v h⟩
      · rw [e1, if_neg ha] at h ⊢
        exact ⟨a, upd env a h⟩
    | a :: b :: rest => exact Option.noConfusion h

/-- Witness for C9: a failing `cd` leaves `sampleEnv` untouched, and a
successful one updates `PWD` and `OLDPWD`. -/
theorem claim_C9_witness :
    (cd sampleEnv ["/bad".toList]).2 = sampleEnv ∧
    (∃ target, sampleEnv.chdirErr target = none ∧
      (cd sampleEnv ["/new".toList]).2.vars "PWD".toList = some (sampleEnv.abs target) ∧
      (cd sampleEnv ["/new".toList]).2.vars "OLDPWD".toList =
        some (getenv sampleEnv "PWD".toList)) := by
  constructor
  · exact claim_C9.1 sampleEnv ["/bad".toList] (by decide)
  · exact claim_C9.2 sampleEnv ["/new".toList] (by decide)

/-- **C10** — If expanding any word of a `Cmd` errs, `VisitCmd` returns
status −1 with that error and takes no action at all (no builtin lookup,
no spawn, environment untouched); the first expansion error is the one
propagated, and the words after the failing one are never examined (the
result does not depend on them). -/
theorem claim_C10 :
    (∀ (env : Env) (c : List Word) (e : IErr),
      expandArgv env c = Except.error e →
      visitCmd env c = ((-1, some e), CmdEffect.expandFailed, env)) ∧
    (∀ (env : Env) (pre : List Word) (w : Word) (post : List Word) (e : IErr),
      (∀ x ∈ pre, ∃ s, expandWord env x = Except.ok s) →
      expandWord env w = Except.error e →
      expandArgv env (pre ++ w :: post) = Except.error e) ∧
    (∀ (env : Env) (pre : List Word) (w : Word) (post post2 : List Word) (e : IErr),
      expandWord env w = Except.error e →
      expandArgv env (pre ++ w :: post) = expandArgv env (pre ++ w :: post2)) := by
  have step : ∀ (env : Env) (p : Word) (rest : List Word), expandArgv env (p :: rest) =
      match expandWord env p with
      | Except.error e => Except.error e
      | Except.ok s =>
        match expandArgv env rest with
        | Except.error e => Except.error e
        | Except.ok r => Except.ok (s :: r) := fun env p rest => rfl
  refine ⟨?_, ?_, ?_⟩
  · intro env c e h
    simp [visitCmd, h]
  · intro env pre
    induction pre with
    | nil =>
      intro w post e _ hw
      simp [expandArgv, hw]
    | cons p ps ih =>
      intro w post e hpre hw
      obtain ⟨s, hs⟩ := hpre p (by simp)
      rw [List.cons_append, step, hs, ih w post e (fun x hx => hpre x (by simp [hx])) hw]
  · intro env pre
    induction pre with
    | nil =>
      intro w post post2 e hw
      simp [expandArgv, hw]
    | cons p ps ih =>
      intro w post post2 e hw
      rw [List.cons_append, List.cons_append, step, step]
      rw [ih w post post2 e hw]

/-- Witness for C10: with a failing `os.UserHomeDir`, a command whose
second word is a tilde fails expansion; `VisitCmd` returns `(-1, err)`
with no effect, and the words after the tilde are irrelevant. -/
theorem claim_C10_witness :
    visitCmd sampleEnvNoHome [⟨[Expr.string "echo".toList]⟩, ⟨[Expr.tilde ['~']]⟩] =
      ((-1, some (IErr.msg "no home".toList)), CmdEffect.expandFailed, sampleEnvNoHome) ∧
    expandArgv sampleEnvNoHome [⟨[Expr.string "echo".toList]⟩, ⟨[Expr.tilde ['~']]⟩] =
      Except.error (IErr.msg "no home".toList) ∧
    expandArgv sampleEnvNoHome
        [⟨[Expr.string "echo".toList]⟩, ⟨[Expr.tilde ['~']]⟩, ⟨[Expr.string "x".toList]⟩] =
      expandArgv sampleEnvNoHome
        [⟨[Expr.string "echo".toList]⟩, ⟨[Expr.tilde ['~']]⟩, ⟨[Expr.var "Y".toList]⟩] := by
  have h2 := claim_C10.2.1 sampleEnvNoHome [⟨[Expr.string "echo".toList]⟩]
    ⟨[Expr.tilde ['~']]⟩ [] (IErr.msg "no home".toList)
    (by
      intro x hx
      simp only [List.mem_singleton] at hx
      exact ⟨"echo".toList, by rw [hx]; rfl⟩)
    (by rfl)
  refine ⟨?_, by simpa using h2, ?_⟩
  · exact claim_C10.1 sampleEnvNoHome _ _ (by simpa using h2)
  · exact claim_C10.2.2 sampleEnvNoHome [⟨[Expr.string "echo".toList]⟩]
      ⟨[Expr.tilde ['~']]⟩ [⟨[Expr.string "x".toList]⟩] [⟨[Expr.var "Y".toList]⟩]
      (IErr.msg "no home".toList) (by rfl)

/-- **C3** — `exit` with no arguments is the termination signal with
status 0; with one argument accepted by `strconv.Atoi` it is the signal
with that status; a non-integer argument or more than one argument is a
usage error (an ordinary error value, not a termination signal); and the
driver loop, on seeing the termination signal, ends the session with
exactly the signalled status without printing anything. -/
theorem claim_C3 :
    exit [] = IErr.exitStatus 0 ∧
    (∀ (s : List Char) (n : Int), atoi s = some n → exit [s] = IErr.exitStatus n) ∧
    (∀ s : List Char, atoi s = none →
      exit [s] = IErr.msg "exit: integer argument required".toList) ∧
    (∀ (a b : List Char) (rest : List (List Char)),
      exit (a :: b :: rest) = IErr.msg "exit: too many arguments".toList) ∧
    (∀ (st : Int) (log : List (List Char)) (s n : Int) (rest : List ReplEvent),
      replLoop st log (ReplEvent.exec (s, some (IErr.exitStatus n)) :: rest) = (n, log)) := by
  refine ⟨rfl, ?_, ?_, ?_, ?_⟩
  · intro s n h
    simp [exit, h]
  · intro s h
    simp [exit, h]
  · intro a b rest
    rfl
  · intro st log s n rest
    rfl

/-- Witness for C3: `exit`, `exit 2`, `exit 1.2`, `exit too many`, and
the driver ending the session at status 2 without an error message. -/
theorem claim_C3_witness :
    exit [] = IErr.exitStatus 0 ∧
    exit [['2']] = IErr.exitStatus 2 ∧
    exit [['1', '.', '2']] = IErr.msg "exit: integer argument required".toList ∧
    exit ["too".toList, "many".toList] = IErr.msg "exit: too many arguments".toList ∧
    replLoop 0 [] [ReplEvent.exec (1, some (IErr.exitStatus 2))] = (2, []) := by
  refine ⟨claim_C3.1, ?_, ?_, ?_, ?_⟩
  · exact claim_C3.2.1 ['2'] 2 (by decide)
  · exact claim_C3.2.2.1 ['1', '.', '2'] (by decide)
  · exact claim_C3.2.2.2.1 "too".toList "many".toList []
  · exact claim_C3.2.2.2.2 0 [] 1 2 []

/-- **C4, claim as stated is false** — feeding the line `'x` (an
unterminated single-quoted string) emits a `SubString` *followed by a
`Newline` lexeme*: contrary to the claim, a `Newline` is emitted for the
line and is its last lexeme, the `SubString` only second to last. -/
theorem claim_C4_counterexample :
    lexLine LexState.start ['\'', 'x'] =
      ([⟨Tok.subString, ['x', '\n']⟩, ⟨Tok.newline, []⟩], LexState.singleQ) ∧
    (lexLine LexState.start ['\'', 'x']).1.getLast? = some ⟨Tok.newline, []⟩ := by
  have heval : lexLine LexState.start ['\'', 'x'] =
      ([⟨Tok.subString, ['x', '\n']⟩, ⟨Tok.newline, []⟩], LexState.singleQ) := by
    show lexStart ['\'', 'x'] = _
    rw [lexStart_squote_case _ ['x'] (by decide)]
    rw [quoted_eol_case _ _ _ (by decide)]
    decide
  rw [heval]
  exact ⟨rfl, rfl⟩

/-- **C4, amended** — each fed line synchronously emits lexemes ending
with exactly one terminal lexeme, all earlier lexemes being
non-terminal: the terminal is a `Newline`, except when the line is a lone
backslash continuation, where it is an `EscapedNewline` (and then no
`Newline` is emitted for the line); when the line ends inside an
unterminated quoted string or after a mid-word backslash (the lexer's
state stays a continuation state) the `SubString` carrying the pending
text is emitted and then a final `Newline` lexeme *is* emitted after
it. -/
theorem claim_C4 (st : LexState) (line : List Char) :
    (lexLine st line).1 ≠ [] ∧
    (∀ l ∈ (lexLine st line).1.dropLast,
      l.tok ≠ Tok.newline ∧ l.tok ≠ Tok.escapedNewline) ∧
    (∃ t, (lexLine st line).1.getLast? = some t ∧
      (t.tok = Tok.newline ∨ (t.tok = Tok.escapedNewline ∧ t.text = ['\\']))) ∧
    ((lexLine st line).2 ≠ LexState.start →
      ∃ body s r, (lexLine st line).1 = body ++ [⟨Tok.subString, s⟩, ⟨Tok.newline, r⟩]) := by
  obtain ⟨body, t, hout, hb, ht⟩ := (lexLine_good st line).shape
  refine ⟨?_, ?_, ?_, ?_⟩
  · rw [hout]
    simp
  · rw [hout, List.dropLast_concat]
    exact hb
  · rw [hout, List.getLast?_concat]
    exact ⟨t, rfl, ht⟩
  · exact (lexLine_good st line).cont

/-- Witness for C4: the unterminated-string line `'x` leaves the lexer in
the single-quote state and its emission ends in `SubString` followed by
`Newline`; the continuation line `\` ends in `EscapedNewline`. -/
theorem claim_C4_witness :
    (∃ body s r, (lexLine LexState.start ['\'', 'x']).1 =
      body ++ [⟨Tok.subString, s⟩, ⟨Tok.newline, r⟩]) ∧
    (∀ l ∈ (lexLine LexState.start ['\\']).1.dropLast,
      l.tok ≠ Tok.newline ∧ l.tok ≠ Tok.escapedNewline) := by
  constructor
  · have heval : lexLine LexState.start ['\'', 'x'] =
        ([⟨Tok.subString, ['x', '\n']⟩, ⟨Tok.newline, []⟩], LexState.singleQ) := by
      show lexStart ['\'', 'x'] = _
      rw [lexStart_squote_case _ ['x'] (by decide)]
      rw [quoted_eol_case _ _ _ (by decide)]
      decide
    refine (claim_C4 LexState.start ['\'', 'x']).2.2.2 ?_
    rw [heval]
    simp
  · exact (claim_C4 LexState.start ['\\']).2.1

/-- **C5, claim as stated is false** — `;` is not a delimiter of this
lexer at all: the line `cd;ls` is one `String` lexeme whose text contains
the `;`, and no `Semicolon` lexeme is emitted; moreover a backslash *can*
escape `|`: the line `a\|b` is one `String` lexeme whose text contains
the `|`. -/
theorem claim_C5_counterexample :
    lexLine LexState.start ['c', 'd', ';', 'l', 's'] =
      ([⟨Tok.string, ['c', 'd', ';', 'l', 's']⟩, ⟨Tok.newline, []⟩], LexState.start) ∧
    ';' ∈ (⟨Tok.string, ['c', 'd', ';', 'l', 's']⟩ : Lexeme).text ∧
    lexLine LexState.start ['a', '\\', '|', 'b'] =
      ([⟨Tok.string, ['a', '|', 'b']⟩, ⟨Tok.newline, []⟩], LexState.start) ∧
    '|' ∈ (⟨Tok.string, ['a', '|', 'b']⟩ : Lexeme).text := by
  refine ⟨?_, by decide, ?_, by decide⟩
  · show lexStart _ = _
    rw [lexStart_word_case _ 'c' ['d', ';', 'l', 's'] (by decide) (by decide) (by decide)
      (by decide) (by decide) (by decide) (by decide)]
    rw [lexUnquoted_word_case _ (by decide)]
    rw [lexStart_nil_case _ (by decide)]
    decide
  · show lexStart _ = _
    rw [lexStart_word_case _ 'a' ['\\', '|', 'b'] (by decide) (by decide) (by decide)
      (by decide) (by decide) (by decide) (by decide)]
    rw [lexUnquoted_word_case _ (by decide)]
    rw [lexStart_nil_case _ (by decide)]
    decide

/-- **C5, amended** — the lexer never emits a `Semicolon` lexeme (`;` is
ordinary word text); every `Pipe` lexeme it emits is exactly the single
character `|`; and on a line with no backslash and no quote characters
(so every `|` is unquoted and unescaped) no `String`/`SubString` lexeme's
text contains `|` — an unquoted unescaped `|` is always its own `Pipe`
lexeme and never part of a word. -/
theorem claim_C5 :
    (∀ (st : LexState) (line : List Char),
      ∀ l ∈ (lexLine st line).1, l.tok ≠ Tok.semicolon) ∧
    (∀ (st : LexState) (line : List Char),
      ∀ l ∈ (lexLine st line).1, l.tok = Tok.pipe → l.text = ['|']) ∧
    (∀ line : List Char, BSQFree line →
      ∀ l ∈ (lexStart line).1,
        (l.tok = Tok.string ∨ l.tok = Tok.subString) → '|' ∉ l.text) := by
  refine ⟨?_, ?_, ?_⟩
  · intro st line
    exact (lexLine_good st line).noSemi
  · intro st line
    exact (lexLine_good st line).pipeText
  · intro line h
    exact lexStart_pipe_free line h

/-- Witness for C5: instantiated on the line `a|b`. -/
theorem claim_C5_witness :
    (⟨Tok.string, ['a']⟩ : Lexeme).tok ≠ Tok.semicolon ∧
    (⟨Tok.pipe, ['|']⟩ : Lexeme).text = ['|'] ∧
    '|' ∉ (⟨Tok.string, ['a']⟩ : Lexeme).text := by
  have heval : lexLine LexState.start ['a', '|', 'b'] =
      ([⟨Tok.string, ['a']⟩, ⟨Tok.pipe, ['|']⟩, ⟨Tok.string, ['b']⟩, ⟨Tok.newline, []⟩],
        LexState.start) := by
    show lexStart _ = _
    rw [lexStart_word_case _ 'a' ['|', 'b'] (by decide) (by decide) (by decide) (by decide)
      (by decide) (by decide) (by decide)]
    rw [lexUnquoted_word_case _ (by decide)]
    rw [lexStart_pipe_case _ ['b'] (by decide)]
    rw [lexStart_word_case _ 'b' [] (by decide) (by decide) (by decide) (by decide)
      (by decide) (by decide) (by decide)]
    rw [lexUnquoted_word_case _ (by decide)]
    rw [lexStart_nil_case _ (by decide)]
    decide
  refine ⟨?_, ?_, ?_⟩
  · refine claim_C5.1 LexState.start ['a', '|', 'b'] _ ?_
    rw [heval]
    simp
  · refine claim_C5.2.1 LexState.start ['a', '|', 'b'] _ ?_ rfl
    rw [heval]
    simp
  · refine claim_C5.2.2 ['a', '|', 'b'] (by unfold BSQFree; decide) _ ?_ (Or.inl rfl)
    have heval2 : (lexStart ['a', '|', 'b']).1 = (lexLine LexState.start ['a', '|', 'b']).1 :=
      rfl
    rw [heval2, heval]
    simp

/-! ### A quoted string spanning two fed lines (C2)

`decodeString` on a span free of backslashes and delimiters copies it
whole (appending the newline in quote mode), and stops exactly at the
first delimiter after such a span. -/

theorem decodeString_all_plain (q : Bool) (d : List Char) :
    ∀ l : List Char, (∀ c ∈ l, c ≠ '\\' ∧ d.contains c = false) →
      decodeString q d l = (l ++ (if q then ['\n'] else []), l.length) := by
  intro l
  induction l with
  | nil =>
    intro _
    simp [decodeString_nil]
  | cons c cs ih =>
    intro h
    have hc := h c (by simp)
    rw [decodeString_plain q d c cs hc.1 hc.2, ih (fun x hx => h x (by simp [hx]))]
    simp

theorem decodeString_stops (q : Bool) (d : List Char) (c : Char) (rest : List Char)
    (hc : c ≠ '\\') (hd : d.contains c = true) :
    ∀ p : List Char, (∀ x ∈ p, x ≠ '\\' ∧ d.contains x = false) →
      decodeString q d (p ++ c :: rest) = (p, p.length) := by
  intro p
  induction p with
  | nil =>
    intro _
    simpa using decodeString_delim q d c rest hc hd
  | cons a as ih =>
    intro h
    have ha := h a (by simp)
    rw [List.cons_append, decodeString_plain q d a (as ++ c :: rest) ha.1 ha.2,
      ih (fun x hx => h x (by simp [hx]))]
    simp

/-- Lexing the opening line `a '…` (rest of line quote- and
backslash-free): a `String`, the separating `Whitespace`, the quoted
span as a `SubString` with the line-boundary newline appended, and the
final `Newline`, leaving the lexer in the single-quote state. -/
theorem lexLine_quote_open (c1 : List Char)
    (h1 : ∀ c ∈ c1, c ≠ '\'' ∧ c ≠ '\\') :
    lexLine LexState.start (['a', ' ', '\''] ++ c1) =
      ([⟨Tok.string, ['a']⟩, ⟨Tok.whitespace, [' ']⟩,
        ⟨Tok.subString, c1 ++ ['\n']⟩, ⟨Tok.newline, []⟩], LexState.singleQ) := by
  have hplain : ∀ c ∈ c1, c ≠ '\\' ∧ (['\''] : List Char).contains c = false := by
    intro c hc
    have h := h1 c hc
    refine ⟨h.2, ?_⟩
    simp [h.1]
  have hdec : decodeString true ['\''] c1 = (c1 ++ ['\n'], c1.length) := by
    simpa using decodeString_all_plain true ['\''] c1 hplain
  have hq : quoted '\'' LexState.singleQ c1 =
      ([⟨Tok.subString, c1 ++ ['\n']⟩, ⟨Tok.newline, []⟩], LexState.singleQ) := by
    have hdrop : c1.drop (decodeString true ['\''] c1).2 = [] := by
      rw [hdec]
      simp
    rw [quoted_eol_case '\'' LexState.singleQ c1 hdrop, hdec]
  have hmid : lexStart (' ' :: '\'' :: c1) =
      ([⟨Tok.whitespace, [' ']⟩] ++ (quoted '\'' LexState.singleQ c1).1,
        (quoted '\'' LexState.singleQ c1).2) := by
    rw [lexStart_squote_case (' ' :: '\'' :: c1) c1 rfl,
      show wsPre (' ' :: '\'' :: c1) = [⟨Tok.whitespace, [' ']⟩] from rfl]
  have hdec1 : decodeString false unquotedDelims ('a' :: ' ' :: '\'' :: c1) = (['a'], 1) := rfl
  have hu : lexUnquoted ('a' :: ' ' :: '\'' :: c1) =
      (⟨Tok.string, ['a']⟩ :: (lexStart (' ' :: '\'' :: c1)).1,
        (lexStart (' ' :: '\'' :: c1)).2) := by
    have hne : ('a' :: ' ' :: '\'' :: c1).drop
        (decodeString false unquotedDelims ('a' :: ' ' :: '\'' :: c1)).2 ≠ ['\\'] := by
      rw [hdec1]
      simp
    rw [lexUnquoted_word_case _ hne, hdec1]
    rfl
  have hstart := lexStart_word_case ('a' :: ' ' :: '\'' :: c1) 'a' (' ' :: '\'' :: c1) rfl
    (fun h => absurd h.1 (by decide)) (by decide) (by decide) (by decide) (by decide) (by decide)
  show lexStart ('a' :: ' ' :: '\'' :: c1) = _
  rw [hstart, show wsPre ('a' :: ' ' :: '\'' :: c1) = [] from rfl, hu, hmid, hq]
  rfl

/-- Lexing the closing line `…'` (quote- and backslash-free before the
quote): the quoted span closes into a `String` and the line ends with a
`Newline`, back in the start state. -/
theorem lexLine_quote_close (c2 : List Char)
    (h2 : ∀ c ∈ c2, c ≠ '\'' ∧ c ≠ '\\') :
    lexLine LexState.singleQ (c2 ++ ['\'']) =
      ([⟨Tok.string, c2⟩, ⟨Tok.newline, []⟩], LexState.start) := by
  have hplain : ∀ x ∈ c2, x ≠ '\\' ∧ (['\''] : List Char).contains x = false := by
    intro x hx
    have h := h2 x hx
    refine ⟨h.2, ?_⟩
    simp [h.1]
  have hdec : decodeString true ['\''] (c2 ++ ['\'']) = (c2, c2.length) :=
    decodeString_stops true ['\''] '\'' [] (by decide) (by decide) c2 hplain
  have hdrop : (c2 ++ ['\'']).drop (decodeString true ['\''] (c2 ++ ['\''])).2
      = '\'' :: [] := by
    rw [hdec]
    exact List.drop_left c2 ['\'']
  have hnil : lexStart [] = ([⟨Tok.newline, []⟩], LexState.start) := by
    rw [lexStart_nil_case [] rfl]
    rfl
  show quoted '\'' LexState.singleQ (c2 ++ ['\'']) = _
  rw [quoted_close_case '\'' LexState.singleQ (c2 ++ ['\'']) [] hdrop, hdec, hnil]

/-- **C2** — a single-quoted string whose closing quote arrives on the
next fed line is reconstructed with exactly one embedded newline at the
line boundary: for every quote- and backslash-free `c1` and `c2`, the
lines `a 'c1` and `c2'` signal `[false]` then `[true]`, `Result` returns
the statement list `[Pipeline [Cmd [a, c1\nc2]]]` with no error, and the
command's argv expands (in any environment) to `["a", c1 ++ "\n" ++ c2]`
— the newline appears exactly once, at the boundary. -/
theorem claim_C2 (c1 c2 : List Char)
    (h1 : ∀ c ∈ c1, c ≠ '\'' ∧ c ≠ '\\')
    (h2 : ∀ c ∈ c2, c ≠ '\'' ∧ c ≠ '\\') :
    (parseAll newParser [['a', ' ', '\''] ++ c1, c2 ++ ['\'']]).1 = [[false], [true]] ∧
    result (parseAll newParser [['a', ' ', '\''] ++ c1, c2 ++ ['\'']]).2 =
      some (some (Stmt.stmtList [Stmt.pipeline [Stmt.cmd
        [⟨[Expr.string ['a']]⟩, ⟨[Expr.string (c1 ++ '\n' :: c2)]⟩]]]), none) ∧
    ∀ env : Env,
      expandArgv env [⟨[Expr.string ['a']]⟩, ⟨[Expr.string (c1 ++ '\n' :: c2)]⟩] =
        Except.ok [['a'], c1 ++ '\n' :: c2] := by
  have hl1 := lexLine_quote_open c1 h1
  have hl2 := lexLine_quote_close c2 h2
  have hfold1 : stepTokens (PMode.stmts []) [⟨Tok.string, ['a']⟩, ⟨Tok.whitespace, [' ']⟩,
      ⟨Tok.subString, c1 ++ ['\n']⟩, ⟨Tok.newline, []⟩] =
      (PMode.word [] [] [⟨[Expr.string ['a']]⟩] [] (c1 ++ ['\n']), [false]) := by
    simp [stepTokens, pstep, stepStmts, stepWord, stepCmd, stepPipe, stepVar, stepDrain,
      wordConsume]
  have hfold2 : stepTokens (PMode.word [] [] [⟨[Expr.string ['a']]⟩] [] (c1 ++ ['\n']))
      [⟨Tok.string, c2⟩, ⟨Tok.newline, []⟩] =
      (PMode.done (some (Stmt.stmtList [Stmt.pipeline [Stmt.cmd
        [⟨[Expr.string ['a']]⟩, ⟨[Expr.string (c1 ++ '\n' :: c2)]⟩]]])) none, [true]) := by
    simp [stepTokens, pstep, stepStmts, stepWord, stepCmd, stepPipe, stepVar, stepDrain,
      wordConsume]
  have hpa : parseAll newParser [['a', ' ', '\''] ++ c1, c2 ++ ['\'']] =
      ([[false], [true]], ⟨LexState.start, PMode.done (some (Stmt.stmtList [Stmt.pipeline
        [Stmt.cmd [⟨[Expr.string ['a']]⟩, ⟨[Expr.string (c1 ++ '\n' :: c2)]⟩]]])) none⟩) := by
    simp only [parseAll, parse, newParser, hl1, hl2, hfold1, hfold2]
  refine ⟨?_, ?_, ?_⟩
  · rw [hpa]
  · rw [hpa, result]
  · intro env
    simp [expandArgv, expandWord, expandExprs, expandExpr]

/-- Witness for C2: the spec's own example, lines `a 'b` then `c'`,
giving argv `["a", "b\nc"]` (expanded here in `sampleEnv`). -/
theorem claim_C2_witness :
    (∀ c ∈ ['b'], c ≠ '\'' ∧ c ≠ '\\') ∧
    (parseAll newParser [['a', ' ', '\'', 'b'], ['c', '\'']]).1 = [[false], [true]] ∧
    result (parseAll newParser [['a', ' ', '\'', 'b'], ['c', '\'']]).2 =
      some (some (Stmt.stmtList [Stmt.pipeline [Stmt.cmd
        [⟨[Expr.string ['a']]⟩, ⟨[Expr.string ['b', '\n', 'c']]⟩]]]), none) ∧
    expandArgv sampleEnv [⟨[Expr.string ['a']]⟩, ⟨[Expr.string ['b', '\n', 'c']]⟩] =
      Except.ok [['a'], ['b', '\n', 'c']] :=
  ⟨by decide,
    (claim_C2 ['b'] ['c'] (by decide) (by decide)).1,
    (claim_C2 ['b'] ['c'] (by decide) (by decide)).2.1,
    (claim_C2 ['b'] ['c'] (by decide) (by decide)).2.2 sampleEnv⟩
/-! ### Every Pipeline the parser builds has at least one stage (C8)

`parsePipeline` appends a stage before every re-entry of its loop, and a
pipeline node is only materialised (`sacc ++ [Pipeline pacc]`) after at
least one `parseCmd` return, so `pacc` is never empty at that point.
`PipesNonEmpty` states the invariant for a whole tree and `ModeGood`
carries it through every suspension point of the parser coroutine. -/

mutual

def PipesNonEmpty : Stmt → Prop
  | Stmt.stmtList ss => PipesNonEmptyL ss
  | Stmt.pipeline ss => ss ≠ [] ∧ PipesNonEmptyL ss
  | Stmt.cmd _ => True

def PipesNonEmptyL : List Stmt → Prop
  | [] => True
  | s :: ss => PipesNonEmpty s ∧ PipesNonEmptyL ss

end

theorem pipesL_append (xs ys : List Stmt) (hx : PipesNonEmptyL xs) (hy : PipesNonEmptyL ys) :
    PipesNonEmptyL (xs ++ ys) := by
  induction xs with
  | nil => simpa using hy
  | cons a as ih =>
    simp only [PipesNonEmptyL] at hx
    simp only [List.cons_append, PipesNonEmptyL]
    exact ⟨hx.1, ih hx.2⟩

/-- The pipeline-nonemptiness data carried by each suspension mode of the
parser coroutine: statement and stage accumulators hold good trees only,
and in `parsePipeline`'s own loop at least one stage has been
accumulated; a finished parse (`done`) holds a good tree whenever it
holds one at all. -/
def ModeGood : PMode → Prop
  | PMode.stmts acc => PipesNonEmptyL acc
  | PMode.pipe sacc pacc => PipesNonEmptyL sacc ∧ PipesNonEmptyL pacc ∧ pacc ≠ []
  | PMode.cmd sacc pacc _ => PipesNonEmptyL sacc ∧ PipesNonEmptyL pacc
  | PMode.word sacc pacc _ _ _ => PipesNonEmptyL sacc ∧ PipesNonEmptyL pacc
  | PMode.vmode sacc pacc _ _ _ _ => PipesNonEmptyL sacc ∧ PipesNonEmptyL pacc
  | PMode.drain _ => True
  | PMode.done s _ => ∀ t, s = some t → PipesNonEmpty t
  | PMode.diverge => True

theorem ite_good (c : Prop) [Decidable c] (a b : PMode × Option Bool) (ha : ModeGood a.1)
    (hb : ModeGood b.1) : ModeGood (if c then a else b).1 := by
  split
  · exact ha
  · exact hb

theorem stepDrain_good (e : PErr) (l : Lexeme) : ModeGood (stepDrain e l).1 := by
  rcases l with ⟨tok, text⟩
  cases tok <;> simp [stepDrain, ModeGood]

theorem wordConsume_good (sacc pacc : List Stmt) (argv : List Word) (exprs : List Expr)
    (str : List Char) (l : Lexeme) (hs : PipesNonEmptyL sacc) (hp : PipesNonEmptyL pacc) :
    ModeGood (wordConsume sacc pacc argv exprs str l).1 := by
  rcases l with ⟨tok, text⟩
  cases tok <;> simp [wordConsume, ModeGood, hs, hp]

theorem stepStmts_good (acc : List Stmt) (l : Lexeme) (h : PipesNonEmptyL acc) :
    ModeGood (stepStmts acc l).1 := by
  rcases l with ⟨tok, text⟩
  cases tok <;>
    simp [stepStmts, stepDrain, wordConsume, ModeGood, PipesNonEmpty, PipesNonEmptyL, h]

theorem stepPipe_good (sacc pacc : List Stmt) (l : Lexeme) (hs : PipesNonEmptyL sacc)
    (hp : PipesNonEmptyL pacc) (hne : pacc ≠ []) : ModeGood (stepPipe sacc pacc l).1 := by
  have hsp : PipesNonEmptyL (sacc ++ [Stmt.pipeline pacc]) :=
    pipesL_append sacc [Stmt.pipeline pacc] hs
      (by simp [PipesNonEmptyL, PipesNonEmpty, hne, hp])
  rcases l with ⟨tok, text⟩
  cases tok
  case newline => exact stepStmts_good _ _ hsp
  case semicolon => exact stepStmts_good _ _ hsp
  case whitespace => simp [stepPipe, ModeGood, hs, hp, hne]
  case escapedNewline => simp [stepPipe, ModeGood, hs, hp, hne]
  case pipe => simp [stepPipe, ModeGood, hs, hp, hne]
  case identifier => simp [stepPipe, ModeGood]
  case string => exact wordConsume_good sacc pacc [] [] [] _ hs hp
  case subString => exact wordConsume_good sacc pacc [] [] [] _ hs hp
  case dollar => exact wordConsume_good sacc pacc [] [] [] _ hs hp
  case tilde => exact wordConsume_good sacc pacc [] [] [] _ hs hp

theorem stepCmd_good (sacc pacc : List Stmt) (argv : List Word) (l : Lexeme)
    (hs : PipesNonEmptyL sacc) (hp : PipesNonEmptyL pacc) :
    ModeGood (stepCmd sacc pacc argv l).1 := by
  have hp2 : PipesNonEmptyL (pacc ++ [Stmt.cmd argv]) :=
    pipesL_append pacc [Stmt.cmd argv] hp (by simp [PipesNonEmptyL, PipesNonEmpty])
  have hne2 : pacc ++ [Stmt.cmd argv] ≠ [] := by simp
  rcases l with ⟨tok, text⟩
  cases tok
  case whitespace => simp [stepCmd, ModeGood, hs, hp]
  case escapedNewline => simp [stepCmd, ModeGood, hs, hp]
  case string => exact wordConsume_good sacc pacc argv [] [] _ hs hp
  case subString => exact wordConsume_good sacc pacc argv [] [] _ hs hp
  case dollar => exact wordConsume_good sacc pacc argv [] [] _ hs hp
  case tilde => exact wordConsume_good sacc pacc argv [] [] _ hs hp
  case newline => exact stepPipe_good sacc _ _ hs hp2 hne2
  case identifier => exact stepPipe_good sacc _ _ hs hp2 hne2
  case pipe => exact stepPipe_good sacc _ _ hs hp2 hne2
  case semicolon => exact stepPipe_good sacc _ _ hs hp2 hne2

theorem stepWord_good (sacc pacc : List Stmt) (argv : List Word) (exprs : List Expr)
    (str : List Char) (l : Lexeme) (hs : PipesNonEmptyL sacc) (hp : PipesNonEmptyL pacc) :
    ModeGood (stepWord sacc pacc argv exprs str l).1 := by
  rcases l with ⟨tok, text⟩
  cases tok
  case newline =>
    simp only [stepWord]
    exact ite_good _ _ _ (stepCmd_good sacc pacc _ _ hs hp)
      (wordConsume_good sacc pacc argv exprs str _ hs hp)
  case string => exact wordConsume_good sacc pacc argv exprs str _ hs hp
  case subString => exact wordConsume_good sacc pacc argv exprs str _ hs hp
  case dollar => exact wordConsume_good sacc pacc argv exprs str _ hs hp
  case tilde => exact wordConsume_good sacc pacc argv exprs str _ hs hp
  all_goals
    simp only [stepWord]
  all_goals
    exact ite_good _ _ _ (stepCmd_good sacc pacc _ _ hs hp) (stepDrain_good _ _)

theorem stepVar_good (sacc pacc : List Stmt) (argv : List Word) (exprs : List Expr)
    (str : List Char) (dollar : List Char) (l : Lexeme) (hs : PipesNonEmptyL sacc)
    (hp : PipesNonEmptyL pacc) : ModeGood (stepVar sacc pacc argv exprs str dollar l).1 := by
  rcases l with ⟨tok, text⟩
  cases tok
  case identifier => simp [stepVar, ModeGood, hs, hp]
  all_goals exact stepWord_good sacc pacc argv (exprs ++ [Expr.string dollar]) str _ hs hp

theorem pstep_good (m : PMode) (l : Lexeme) (h : ModeGood m) : ModeGood (pstep m l).1 := by
  cases m
  case stmts acc => exact stepStmts_good acc l (by simpa [ModeGood] using h)
  case pipe sacc pacc =>
    simp only [ModeGood] at h
    exact stepPipe_good sacc pacc l h.1 h.2.1 h.2.2
  case cmd sacc pacc argv =>
    simp only [ModeGood] at h
    exact stepCmd_good sacc pacc argv l h.1 h.2
  case word sacc pacc argv exprs str =>
    simp only [ModeGood] at h
    exact stepWord_good sacc pacc argv exprs str l h.1 h.2
  case vmode sacc pacc argv exprs str dollar =>
    simp only [ModeGood] at h
    exact stepVar_good sacc pacc argv exprs str dollar l h.1 h.2
  case drain e => exact stepDrain_good e l
  case done s err => exact h
  case diverge => exact h

theorem stepTokens_good (ls : List Lexeme) : ∀ m : PMode, ModeGood m →
    ModeGood (stepTokens m ls).1 := by
  induction ls with
  | nil =>
    intro m h
    simpa [stepTokens] using h
  | cons l ls ih =>
    intro m h
    simp only [stepTokens]
    exact ih _ (pstep_good m l h)

theorem parse_good (p : ParserS) (line : List Char) (h : ModeGood p.mode) :
    ModeGood (parse p line).2.mode := by
  rcases p with ⟨lexSt, mode⟩
  cases mode
  case done s err =>
    exact stepTokens_good _ (PMode.stmts []) (by simp [ModeGood, PipesNonEmptyL])
  all_goals exact stepTokens_good _ _ h

theorem parseAll_good (lines : List (List Char)) : ∀ p : ParserS, ModeGood p.mode →
    ModeGood (parseAll p lines).2.mode := by
  induction lines with
  | nil =>
    intro p h
    simpa [parseAll] using h
  | cons line rest ih =>
    intro p h
    simp only [parseAll]
    exact ih _ (parse_good p line h)

/-- **C8** — every `Pipeline` node ever produced by the parser has at
least one stage: whenever `Result()` returns a statement tree for some
sequence of fed lines, every `Pipeline` in that tree (the whole tree
satisfying `PipesNonEmpty`) has a nonempty stage list. -/
theorem claim_C8 (lines : List (List Char)) (stmt : Stmt) (e : Option PErr)
    (h : result (parseAll newParser lines).2 = some (some stmt, e)) :
    PipesNonEmpty stmt := by
  have hg : ModeGood (parseAll newParser lines).2.mode :=
    parseAll_good lines newParser (by simp [newParser, ModeGood])
  rcases hP : (parseAll newParser lines).2 with ⟨lexSt, mode⟩
  rw [hP] at h hg
  cases mode <;> simp [result] at h
  rename_i s err
  simp only [ModeGood] at hg
  exact hg stmt h.1

/-- Witness for C8: the line `a|b` parses to a statement list holding one
two-stage pipeline, and the theorem yields its nonemptiness invariant. -/
theorem claim_C8_witness :
    result (parseAll newParser [['a', '|', 'b']]).2 =
      some (some (Stmt.stmtList [Stmt.pipeline
        [Stmt.cmd [⟨[Expr.string ['a']]⟩], Stmt.cmd [⟨[Expr.string ['b']]⟩]]]), none) ∧
    PipesNonEmpty (Stmt.stmtList [Stmt.pipeline
      [Stmt.cmd [⟨[Expr.string ['a']]⟩], Stmt.cmd [⟨[Expr.string ['b']]⟩]]]) := by
  have hlex : lexLine LexState.start ['a', '|', 'b'] =
      ([⟨Tok.string, ['a']⟩, ⟨Tok.pipe, ['|']⟩, ⟨Tok.string, ['b']⟩, ⟨Tok.newline, []⟩],
        LexState.start) := by
    show lexStart _ = _
    rw [lexStart_word_case _ 'a' ['|', 'b'] (by decide) (by decide) (by decide) (by decide)
      (by decide) (by decide) (by decide)]
    rw [lexUnquoted_word_case _ (by decide)]
    rw [lexStart_pipe_case _ ['b'] (by decide)]
    rw [lexStart_word_case _ 'b' [] (by decide) (by decide) (by decide) (by decide)
      (by decide) (by decide) (by decide)]
    rw [lexUnquoted_word_case _ (by decide)]
    rw [lexStart_nil_case _ (by decide)]
    decide
  have h : result (parseAll newParser [['a', '|', 'b']]).2 =
      some (some (Stmt.stmtList [Stmt.pipeline
        [Stmt.cmd [⟨[Expr.string ['a']]⟩], Stmt.cmd [⟨[Expr.string ['b']]⟩]]]), none) := by
    simp only [parseAll, parse, newParser, hlex]
    rfl
  exact ⟨h, claim_C8 [['a', '|', 'b']] _ none h⟩
/-! ### Exactly one done-signal per fed line; Result panics mid-statement (C7)

While a statement is in progress the coroutine mode is *active*
(`p.locked == true` in Go); `done` is the only mode in which `Result()`
returns.  A body (non-terminal) lexeme never sends on `done` and keeps
the mode active; the line's single terminal lexeme sends exactly one
value `b`, with `b = true` iff the statement (or error recovery)
completed.  The `diverge` mode is unreachable because an `Identifier`
lexeme only ever follows a `Dollar` (lexer invariant `identOkFrom`), at
which point the coroutine is peeking inside `parseVar` or draining. -/

def Active : PMode → Prop
  | PMode.stmts _ => True
  | PMode.pipe _ _ => True
  | PMode.cmd _ _ _ => True
  | PMode.word _ _ _ _ _ => True
  | PMode.vmode _ _ _ _ _ _ => True
  | PMode.drain _ => True
  | PMode.done _ _ => False
  | PMode.diverge => False

def IsDone : PMode → Prop
  | PMode.stmts _ => False
  | PMode.pipe _ _ => False
  | PMode.cmd _ _ _ => False
  | PMode.word _ _ _ _ _ => False
  | PMode.vmode _ _ _ _ _ _ => False
  | PMode.drain _ => False
  | PMode.done _ _ => True
  | PMode.diverge => False

/-- The modes that may safely receive an `Identifier` lexeme: peeking in
`parseVar` after a `Dollar`, or draining after a parse error. -/
def VD : PMode → Prop
  | PMode.stmts _ => False
  | PMode.pipe _ _ => False
  | PMode.cmd _ _ _ => False
  | PMode.word _ _ _ _ _ => False
  | PMode.vmode _ _ _ _ _ _ => True
  | PMode.drain _ => True
  | PMode.done _ _ => False
  | PMode.diverge => False

theorem pstep_body (m : PMode) (l : Lexeme) (hm : Active m)
    (hnt : l.tok ≠ Tok.newline ∧ l.tok ≠ Tok.escapedNewline)
    (hid : l.tok = Tok.identifier → VD m) :
    (pstep m l).2 = none ∧ Active (pstep m l).1 ∧
      (l.tok = Tok.dollar → VD (pstep m l).1) := by
  rcases l with ⟨tok, text⟩
  cases m
  case done s e => exact absurd hm (by simp [Active])
  case diverge => exact absurd hm (by simp [Active])
  case stmts acc =>
    cases tok <;>
      simp_all [pstep, stepStmts, stepDrain, wordConsume, Active, VD]
  case pipe sacc pacc =>
    cases tok <;>
      simp_all [pstep, stepPipe, stepStmts, stepDrain, wordConsume, Active, VD]
  case cmd sacc pacc argv =>
    cases tok <;>
      simp_all [pstep, stepCmd, stepPipe, stepStmts, stepDrain, wordConsume, Active, VD]
  case word sacc pacc argv exprs str =>
    by_cases hstr : str = [] <;>
      cases tok <;>
        simp_all [pstep, stepWord, stepCmd, stepPipe, stepStmts, stepDrain, wordConsume,
          Active, VD]
  case vmode sacc pacc argv exprs str dollar =>
    by_cases hstr : str = [] <;>
      cases tok <;>
        simp_all [pstep, stepVar, stepWord, stepCmd, stepPipe, stepStmts, stepDrain,
          wordConsume, Active, VD]
  case drain e =>
    cases tok <;>
      simp_all [pstep, stepDrain, Active, VD]

theorem pstep_term (m : PMode) (l : Lexeme) (hm : Active m)
    (ht : l.tok = Tok.newline ∨ l.tok = Tok.escapedNewline) :
    ((pstep m l).2 = some true ∧ IsDone (pstep m l).1) ∨
    ((pstep m l).2 = some false ∧ Active (pstep m l).1) := by
  rcases l with ⟨tok, text⟩
  have ht' : tok = Tok.newline ∨ tok = Tok.escapedNewline := ht
  rcases ht' with h | h
  · subst h
    cases m
    case stmts acc => left; simp [pstep, stepStmts, IsDone]
    case pipe sacc pacc => left; simp [pstep, stepPipe, stepStmts, IsDone]
    case cmd sacc pacc argv => left; simp [pstep, stepCmd, stepPipe, stepStmts, IsDone]
    case word sacc pacc argv exprs str =>
      by_cases hstr : str = []
      · left
        simp [pstep, stepWord, stepCmd, stepPipe, stepStmts, wordConsume, hstr, IsDone]
      · right
        simp [pstep, stepWord, wordConsume, hstr, Active]
    case vmode sacc pacc argv exprs str dollar =>
      by_cases hstr : str = []
      · left
        simp [pstep, stepVar, stepWord, stepCmd, stepPipe, stepStmts, wordConsume, hstr,
          IsDone]
      · right
        simp [pstep, stepVar, stepWord, wordConsume, hstr, Active]
    case drain e => left; simp [pstep, stepDrain, IsDone]
    case done s e => exact absurd hm (by simp [Active])
    case diverge => exact absurd hm (by simp [Active])
  · subst h
    cases m
    case stmts acc => right; simp [pstep, stepStmts, Active]
    case pipe sacc pacc => right; simp [pstep, stepPipe, Active]
    case cmd sacc pacc argv => right; simp [pstep, stepCmd, Active]
    case word sacc pacc argv exprs str =>
      by_cases hstr : str = []
      · right
        simp [pstep, stepWord, stepCmd, hstr, Active]
      · left
        simp [pstep, stepWord, stepDrain, wordConsume, hstr, IsDone]
    case vmode sacc pacc argv exprs str dollar =>
      by_cases hstr : str = []
      · right
        simp [pstep, stepVar, stepWord, stepCmd, hstr, Active]
      · left
        simp [pstep, stepVar, stepWord, stepDrain, wordConsume, hstr, IsDone]
    case drain e => left; simp [pstep, stepDrain, IsDone]
    case done s e => exact absurd hm (by simp [Active])
    case diverge => exact absurd hm (by simp [Active])

theorem stepTokens_append (xs ys : List Lexeme) : ∀ m : PMode,
    stepTokens m (xs ++ ys) =
      ((stepTokens (stepTokens m xs).1 ys).1,
        (stepTokens m xs).2 ++ (stepTokens (stepTokens m xs).1 ys).2) := by
  induction xs with
  | nil => intro m; simp [stepTokens]
  | cons l ls ih =>
    intro m
    rw [List.cons_append]
    simp only [stepTokens]
    rw [ih ((pstep m l).1)]
    simp [List.append_assoc]

theorem identOkFrom_append_left (ys : List Lexeme) : ∀ (xs : List Lexeme) (p : Tok),
    identOkFrom p (xs ++ ys) → identOkFrom p xs := by
  intro xs
  induction xs with
  | nil => intro p _; trivial
  | cons l ls ih =>
    intro p h
    exact ⟨h.1, ih l.tok h.2⟩

theorem stepTokens_body (body : List Lexeme) : ∀ (p : Tok) (m : PMode),
    NoTerm body → identOkFrom p body → Active m → (p = Tok.dollar → VD m) →
    Active (stepTokens m body).1 ∧ (stepTokens m body).2 = [] := by
  induction body with
  | nil =>
    intro p m _ _ hm _
    exact ⟨by simpa [stepTokens] using hm, by simp [stepTokens]⟩
  | cons l ls ih =>
    intro p m hnt hok hm hpd
    have hl := hnt l (by simp)
    have hid : l.tok = Tok.identifier → VD m := fun hi => hpd (hok.1 hi)
    have hstep := pstep_body m l hm hl hid
    have hrec := ih l.tok (pstep m l).1 (fun x hx => hnt x (by simp [hx])) hok.2
      hstep.2.1 hstep.2.2
    refine ⟨by simpa [stepTokens] using hrec.1, ?_⟩
    simp [stepTokens, hstep.1, hrec.2]

theorem stepTokens_line (out : List Lexeme) (m : PMode) (hm : Active m)
    (hshape : Shape out) (hok : ∀ p, identOkFrom p out) :
    ∃ b, (stepTokens m out).2 = [b] ∧
      (b = true → IsDone (stepTokens m out).1) ∧
      (b = false → Active (stepTokens m out).1) := by
  obtain ⟨body, t, hout, hbody, hterm⟩ := hshape
  subst hout
  have hok2 := identOkFrom_append_left [t] body Tok.newline (hok Tok.newline)
  have hb := stepTokens_body body Tok.newline m hbody hok2 hm (by simp)
  have ht : t.tok = Tok.newline ∨ t.tok = Tok.escapedNewline := by
    rcases hterm with h | h
    · exact Or.inl h
    · exact Or.inr h.1
  have hstep := pstep_term (stepTokens m body).1 t hb.1 ht
  rw [stepTokens_append body [t] m]
  rcases hstep with ⟨h2, hdone⟩ | ⟨h2, hact⟩
  · refine ⟨true, ?_, fun _ => ?_, fun hx => absurd hx (by simp)⟩
    · simp [stepTokens, hb.2, h2]
    · simpa [stepTokens] using hdone
  · refine ⟨false, ?_, fun hx => absurd hx (by simp), fun _ => ?_⟩
    · simp [stepTokens, hb.2, h2]
    · simpa [stepTokens] using hact

/-- Exactly one value is sent on the `done` channel per fed line: from
any non-panicked parser state, `Parse` collects exactly one signal, and
that signal is `true` precisely when it leaves the parser unlocked
(`Result` callable). -/
theorem parse_signal_unique (p : ParserS) (line : List Char)
    (hp : Active p.mode ∨ IsDone p.mode) :
    ∃ b, (parse p line).1 = [b] ∧
      (b = true → IsDone (parse p line).2.mode) ∧
      (b = false → Active (parse p line).2.mode) := by
  rcases p with ⟨lexSt, mode⟩
  have hg := lexLine_good lexSt line
  cases mode
  case done s e =>
    exact stepTokens_line (lexLine lexSt line).1 (PMode.stmts []) (by simp [Active])
      hg.shape hg.identOk
  case diverge =>
    rcases hp with h | h <;> simp [Active, IsDone] at h
  case stmts acc =>
    exact stepTokens_line (lexLine lexSt line).1 (PMode.stmts acc) (by simp [Active])
      hg.shape hg.identOk
  case pipe sacc pacc =>
    exact stepTokens_line (lexLine lexSt line).1 (PMode.pipe sacc pacc) (by simp [Active])
      hg.shape hg.identOk
  case cmd sacc pacc argv =>
    exact stepTokens_line (lexLine lexSt line).1 (PMode.cmd sacc pacc argv) (by simp [Active])
      hg.shape hg.identOk
  case word sacc pacc argv exprs str =>
    exact stepTokens_line (lexLine lexSt line).1 (PMode.word sacc pacc argv exprs str)
      (by simp [Active]) hg.shape hg.identOk
  case vmode sacc pacc argv exprs str dollar =>
    exact stepTokens_line (lexLine lexSt line).1 (PMode.vmode sacc pacc argv exprs str dollar)
      (by simp [Active]) hg.shape hg.identOk
  case drain e =>
    exact stepTokens_line (lexLine lexSt line).1 (PMode.drain e) (by simp [Active])
      hg.shape hg.identOk

theorem parseAll_sig (lines : List (List Char)) : ∀ p : ParserS,
    Active p.mode ∨ IsDone p.mode →
    (∀ sig ∈ (parseAll p lines).1, sig = [false] ∨ sig = [true]) ∧
    ((lines = [] ∧ (parseAll p lines).2 = p) ∨
      ((parseAll p lines).1.getLast? = some [true] ∧ IsDone (parseAll p lines).2.mode) ∨
      ((parseAll p lines).1.getLast? = some [false] ∧ Active (parseAll p lines).2.mode)) := by
  induction lines with
  | nil =>
    intro p hp
    exact ⟨by simp [parseAll], Or.inl ⟨rfl, by simp [parseAll]⟩⟩
  | cons line rest ih =>
    intro p hp
    obtain ⟨b, hb1, hbt, hbf⟩ := parse_signal_unique p line hp
    have hnext : Active (parse p line).2.mode ∨ IsDone (parse p line).2.mode := by
      cases b
      · exact Or.inl (hbf rfl)
      · exact Or.inr (hbt rfl)
    obtain ⟨hall, hlast⟩ := ih (parse p line).2 hnext
    constructor
    · intro sig hsig
      simp only [parseAll, List.mem_cons] at hsig
      rcases hsig with h | h
      · rw [h, hb1]
        cases b
        · exact Or.inl rfl
        · exact Or.inr rfl
      · exact hall sig h
    · rcases hlast with ⟨hrest, hpeq⟩ | ⟨hl, hd⟩ | ⟨hl, ha⟩
      · subst hrest
        right
        cases b
        · right
          refine ⟨?_, ?_⟩
          · simp [parseAll, hb1]
          · simpa [parseAll] using hbf rfl
        · left
          refine ⟨?_, ?_⟩
          · simp [parseAll, hb1]
          · simpa [parseAll] using hbt rfl
      · right
        left
        have hne : (parseAll (parse p line).2 rest).1 ≠ [] := by
          intro hx
          rw [hx] at hl
          simp at hl
        refine ⟨?_, by simpa [parseAll] using hd⟩
        simp only [parseAll]
        rcases hk : (parseAll (parse p line).2 rest).1 with _ | ⟨s, ss⟩
        · exact absurd hk hne
        · rw [hk] at hl
          rw [List.getLast?_cons_cons]
          exact hl
      · right
        right
        have hne : (parseAll (parse p line).2 rest).1 ≠ [] := by
          intro hx
          rw [hx] at hl
          simp at hl
        refine ⟨?_, by simpa [parseAll] using ha⟩
        simp only [parseAll]
        rcases hk : (parseAll (parse p line).2 rest).1 with _ | ⟨s, ss⟩
        · exact absurd hk hne
        · rw [hk] at hl
          rw [List.getLast?_cons_cons]
          exact hl

theorem result_none_of_active (p : ParserS) (h : Active p.mode) : result p = none := by
  rcases p with ⟨st, m⟩
  cases m <;> simp_all [result, Active]

theorem result_some_of_done (p : ParserS) (h : IsDone p.mode) : result p ≠ none := by
  rcases p with ⟨st, m⟩
  cases m <;> simp_all [result, IsDone]

/-- **C7** — per fed line, `Parse` sends exactly one completion signal:
every per-line signal list collected by `parseAll` is `[false]` or
`[true]` — `false` for every line except the one completing a statement,
`true` exactly when the line completed one; and calling `Result()` while
a statement is still in progress is the fatal usage error (`none`, the
panic): `Result` panics exactly when the last fed line signalled
`false`. -/
theorem claim_C7 (lines : List (List Char)) :
    (∀ sig ∈ (parseAll newParser lines).1, sig = [false] ∨ sig = [true]) ∧
    (result (parseAll newParser lines).2 = none ↔
      (parseAll newParser lines).1.getLast? = some [false]) := by
  have h := parseAll_sig lines newParser (Or.inr (by simp [newParser, IsDone]))
  refine ⟨h.1, ?_⟩
  rcases h.2 with ⟨hnil, hpeq⟩ | ⟨hl, hd⟩ | ⟨hl, ha⟩
  · subst hnil
    rw [hpeq]
    constructor
    · intro hr
      simp [result, newParser] at hr
    · intro hlast
      simp [parseAll] at hlast
  · constructor
    · intro hr
      exact absurd hr (result_some_of_done _ hd)
    · intro hlast
      rw [hl] at hlast
      simp at hlast
  · exact ⟨fun _ => hl, fun _ => result_none_of_active _ ha⟩

/-- Witness for C7: feeding only `echo 'unterminated` signals `[false]`
and leaves the statement in progress, so `Result()` is the fatal usage
error (`none`). -/
theorem claim_C7_witness :
    (parseAll newParser
      [['e', 'c', 'h', 'o', ' ', '\'', 'u', 'n', 't', 'e', 'r', 'm', 'i', 'n', 'a', 't',
        'e', 'd']]).1 = [[false]] ∧
    result (parseAll newParser
      [['e', 'c', 'h', 'o', ' ', '\'', 'u', 'n', 't', 'e', 'r', 'm', 'i', 'n', 'a', 't',
        'e', 'd']]).2 = none := by
  have hlex : lexLine LexState.start
      ['e', 'c', 'h', 'o', ' ', '\'', 'u', 'n', 't', 'e', 'r', 'm', 'i', 'n', 'a', 't',
        'e', 'd'] =
      ([⟨Tok.string, ['e', 'c', 'h', 'o']⟩, ⟨Tok.whitespace, [' ']⟩,
        ⟨Tok.subString, ['u', 'n', 't', 'e', 'r', 'm', 'i', 'n', 'a', 't', 'e', 'd', '\n']⟩,
        ⟨Tok.newline, []⟩], LexState.singleQ) := by
    show lexStart _ = _
    rw [lexStart_word_case _ 'e'
      ['c', 'h', 'o', ' ', '\'', 'u', 'n', 't', 'e', 'r', 'm', 'i', 'n', 'a', 't', 'e', 'd']
      (by decide) (by decide) (by decide) (by decide) (by decide) (by decide) (by decide)]
    rw [lexUnquoted_word_case _ (by decide)]
    rw [lexStart_squote_case _
      ['u', 'n', 't', 'e', 'r', 'm', 'i', 'n', 'a', 't', 'e', 'd'] (by decide)]
    rw [quoted_eol_case '\'' LexState.singleQ _ (by decide)]
    decide
  have hpa : (parseAll newParser
      [['e', 'c', 'h', 'o', ' ', '\'', 'u', 'n', 't', 'e', 'r', 'm', 'i', 'n', 'a', 't',
        'e', 'd']]).1 = [[false]] := by
    simp only [parseAll, parse, newParser, hlex]
    rfl
  refine ⟨hpa, (claim_C7 _).2.mpr ?_⟩
  rw [hpa]
  rfl
end Mesh
